import Mathlib

/-
Verification development for the RSA Retail Savings Bond engine
(`rsarsb_book_value.py`): cash-flow schedule generation and the daily
valuation series for fixed-rate bonds.

Conventions of the shallow embedding:
* Python `datetime.date` values are modelled by `Date` (year/month/day as
  naturals); comparisons and day differences go through the day number
  `toRD` (Howard Hinnant's civil-from-days algorithm specialised to
  nonnegative years), so that `(d2 - d1).days = toRD d2 - toRD d1`.
* Python floats are modelled by `ℚ`; the engine's formulas are pure
  rational arithmetic (products, sums, divisions by constants), so every
  amount is represented exactly.
* `pandas` DataFrame columns become per-day functions indexed by the
  offset (in days) from the start date; `pd.date_range(start, maturity)`
  becomes `List.range (N+1)` with `N` the day count from start
  to maturity.
* `sort_values(by='Date')` is modelled as a stable insertion sort by
  date; the event list it receives is already date-sorted, on which a
  stable sort is the identity.
-/

namespace RSARSB

/-- Gregorian leap-year test, as in Python `calendar.isleap`. -/
def isLeap (y : ℕ) : Bool :=
  y % 4 == 0 && (y % 100 != 0 || y % 400 == 0)

/-- Number of days in a month, as in Python `calendar.monthrange`. -/
def daysInMonth (y m : ℕ) : ℕ :=
  if m = 2 then (if isLeap y then 29 else 28)
  else if m = 4 ∨ m = 6 ∨ m = 9 ∨ m = 11 then 30
  else 31

/-- A calendar date, modelling Python `datetime.date`. -/
structure Date where
  y : ℕ
  m : ℕ
  d : ℕ
deriving DecidableEq, Repr

/-- A date that Python `datetime.date` would accept. -/
def ValidDate (dt : Date) : Prop :=
  1 ≤ dt.y ∧ 1 ≤ dt.m ∧ dt.m ≤ 12 ∧ 1 ≤ dt.d ∧ dt.d ≤ daysInMonth dt.y dt.m

instance : DecidablePred ValidDate := fun dt => by
  unfold ValidDate; infer_instance

/-- The shifted year of Hinnant's civil-date algorithm (years start in March). -/
def yS (dt : Date) : ℕ := if dt.m ≤ 2 then dt.y - 1 else dt.y

/-- Day number of a date (days since 0000-03-01); Hinnant's
days-from-civil algorithm restricted to nonnegative years. Differences of
`toRD` agree with Python's `(d2 - d1).days` on valid dates. -/
def toRD (dt : Date) : ℕ :=
  (yS dt / 400) * 146097
    + ((yS dt % 400) * 365 + (yS dt % 400) / 4 - (yS dt % 400) / 100)
    + ((153 * ((dt.m + 9) % 12) + 2) / 5 + dt.d - 1)

/-- Whole-day difference between two dates: Python `(b - a).days`. -/
def daysBetween (a b : Date) : ℤ := (toRD b : ℤ) - (toRD a : ℤ)

/-- Chronological (lexicographic) strict order on dates. -/
def dateLT (a b : Date) : Prop :=
  a.y < b.y ∨ (a.y = b.y ∧ (a.m < b.m ∨ (a.m = b.m ∧ a.d < b.d)))

/-- Day-number contribution of a month counted linearly from March of
year 0: `F (12 * y + m - 3)` is the day number of the first day of month
`(y, m)`. -/
def F (k : ℕ) : ℕ :=
  (k / 12 / 400) * 146097
    + ((k / 12 % 400) * 365 + (k / 12 % 400) / 4 - (k / 12 % 400) / 100)
    + (153 * (k % 12) + 2) / 5

/-- Length of the month whose linear index is `k`. -/
def dimAt (k : ℕ) : ℕ :=
  if k % 12 ≤ 9 then daysInMonth (k / 12) (k % 12 + 3)
  else daysInMonth (k / 12 + 1) (k % 12 - 9)

theorem toRD_eq_F {dt : Date} (hm1 : 1 ≤ dt.m) (hm2 : dt.m ≤ 12)
    (hy : 1 ≤ dt.y) (hd : 1 ≤ dt.d) :
    toRD dt = F (12 * dt.y + dt.m - 3) + dt.d - 1 := by
  unfold toRD yS F
  rcases le_or_lt dt.m 2 with h | h
  · have e1 : (12 * dt.y + dt.m - 3) % 12 = dt.m + 9 := by omega
    have e2 : (12 * dt.y + dt.m - 3) / 12 = dt.y - 1 := by omega
    rw [e1, e2, if_pos h]
    have e3 : (dt.m + 9) % 12 = dt.m + 9 := by omega
    rw [e3]
    omega
  · have e1 : (12 * dt.y + dt.m - 3) % 12 = dt.m - 3 := by omega
    have e2 : (12 * dt.y + dt.m - 3) / 12 = dt.y := by omega
    rw [e1, e2, if_neg (by omega)]
    have e3 : (dt.m + 9) % 12 = dt.m - 3 := by omega
    rw [e3]
    omega

theorem dimAt_eq {y m : ℕ} (hm1 : 1 ≤ m) (hm2 : m ≤ 12) (hy : 1 ≤ y) :
    dimAt (12 * y + m - 3) = daysInMonth y m := by
  unfold dimAt
  rcases le_or_lt m 2 with h | h
  · have e1 : (12 * y + m - 3) % 12 = m + 9 := by omega
    have e2 : (12 * y + m - 3) / 12 = y - 1 := by omega
    rw [e1, e2, if_neg (by omega)]
    congr 1 <;> omega
  · have e1 : (12 * y + m - 3) % 12 = m - 3 := by omega
    have e2 : (12 * y + m - 3) / 12 = y := by omega
    rw [e1, e2, if_pos (by omega)]
    congr 1
    omega

theorem F_step (k : ℕ) : F k + dimAt k ≤ F (k + 1) := by
  rcases Nat.lt_or_ge (k % 12) 11 with h | h
  · unfold F dimAt daysInMonth
    have e1 : (k + 1) % 12 = k % 12 + 1 := by omega
    have e2 : (k + 1) / 12 = k / 12 := by omega
    rw [e1, e2]
    have hc : k % 12 = 0 ∨ k % 12 = 1 ∨ k % 12 = 2 ∨ k % 12 = 3 ∨ k % 12 = 4
        ∨ k % 12 = 5 ∨ k % 12 = 6 ∨ k % 12 = 7 ∨ k % 12 = 8 ∨ k % 12 = 9
        ∨ k % 12 = 10 := by omega
    rcases hc with hc | hc | hc | hc | hc | hc | hc | hc | hc | hc | hc <;>
      rw [hc] <;> norm_num
  · unfold F dimAt daysInMonth
    have h11 : k % 12 = 11 := by omega
    have e1 : (k + 1) % 12 = 0 := by omega
    have e2 : (k + 1) / 12 = k / 12 + 1 := by omega
    rw [e1, e2, h11]
    cases hL : isLeap (k / 12 + 1) <;>
      simp only [isLeap, Bool.and_eq_true, Bool.or_eq_true, beq_iff_eq,
        bne_iff_ne, ne_eq, decide_eq_true_eq, Bool.and_eq_false_iff,
        Bool.or_eq_false_iff, Bool.not_eq_true, beq_eq_false_iff_ne,
        bne_eq_false_iff_eq, decide_eq_false_iff_not] at hL <;>
      norm_num <;> omega

theorem F_mono : Monotone F := by
  have hstep : ∀ k, F k ≤ F (k + 1) := fun k =>
    le_trans (Nat.le_add_right _ _) (F_step k)
  exact monotone_nat_of_le_succ hstep

/-- On valid dates, the day number is strictly monotone in chronological
order, so `toRD`-based comparisons agree with Python date comparisons. -/
theorem toRD_lt_of_dateLT {a b : Date} (ha : ValidDate a) (hb : ValidDate b)
    (h : dateLT a b) : toRD a < toRD b := by
  obtain ⟨hay, ham1, ham2, had1, had2⟩ := ha
  obtain ⟨hby, hbm1, hbm2, hbd1, hbd2⟩ := hb
  rw [toRD_eq_F ham1 ham2 hay had1, toRD_eq_F hbm1 hbm2 hby hbd1]
  have hk : 12 * a.y + a.m - 3 < 12 * b.y + b.m - 3 ∨
      (12 * a.y + a.m - 3 = 12 * b.y + b.m - 3 ∧ a.d < b.d) := by
    unfold dateLT at h
    omega
  rcases hk with hk | ⟨hk, hd⟩
  · have h1 : F (12 * a.y + a.m - 3) + a.d - 1
        < F (12 * a.y + a.m - 3 + 1) := by
      have := F_step (12 * a.y + a.m - 3)
      have hda : a.d ≤ dimAt (12 * a.y + a.m - 3) := by
        rw [dimAt_eq ham1 ham2 hay]; exact had2
      omega
    have h2 : F (12 * a.y + a.m - 3 + 1) ≤ F (12 * b.y + b.m - 3) :=
      F_mono (by omega)
    omega
  · rw [hk]
    omega

/-- Interest payment types recognised by the engine; `other` stands for
any unrecognised `interest_payment_type` string. -/
inductive PayType
  | semiAnnual
  | monthly
  | reinvest
  | other
deriving DecidableEq, Repr

/-- Python `start_date + relativedelta(years=term)`: same month, day
clamped to the target month's length (so Feb 29 falls back to Feb 28). -/
def addYears (dt : Date) (n : ℕ) : Date :=
  ⟨dt.y + n, dt.m, min dt.d (daysInMonth (dt.y + n) dt.m)⟩

/-- Semi-annual coupon anchors (Mar 31 and Sep 30 of `k` consecutive
years starting at year `y`), in chronological order. The source builds
exactly these dates for `y in range(start.year, maturity.year + 2)` and
sorts the list; the list is produced here directly in its sorted order
(Python's stable sort of an already sorted list is the identity). -/
def anchorsFrom (y : ℕ) : ℕ → List Date
  | 0 => []
  | k + 1 => ⟨y, 3, 31⟩ :: ⟨y, 9, 30⟩ :: anchorsFrom (y + 1) k

/-- All potential semi-annual coupon dates (source lines 98-101). -/
def allCouponDatesSA (startD matD : Date) : List Date :=
  anchorsFrom startD.y (matD.y + 2 - startD.y)

/-- Last calendar day of the month with linear index `i`, where
`i = 12 * year + (month - 1)`. -/
def monthEnd (i : ℕ) : Date :=
  ⟨i / 12, i % 12 + 1, daysInMonth (i / 12) (i % 12 + 1)⟩

/-- Linear index of a date's month. -/
def monthIndex (dt : Date) : ℕ := 12 * dt.y + dt.m - 1

/-- Month-end dates produced by Python
`rrule(MONTHLY, dtstart=start_date, until=maturity_date, bymonthday=-1)`
(source line 104): the last days of the months from the start month on,
kept while they lie at or before the maturity date. -/
def monthEndsUpTo (startD matD : Date) : List Date :=
  ((List.range (monthIndex matD + 1 - monthIndex startD)).map
    (fun i => monthEnd (monthIndex startD + i))).filter
    (fun dd => decide (toRD dd ≤ toRD matD))

/-- Enumerated coupon dates before the maturity-append step (source
lines 96-105). Only used for the three recognised payment types. -/
def enumeratedCoupons (pt : PayType) (startD matD : Date) : List Date :=
  match pt with
  | .monthly =>
    (monthEndsUpTo startD matD).filter (fun dd => decide (toRD startD < toRD dd))
  | _ =>
    (allCouponDatesSA startD matD).filter
      (fun dd => decide (toRD startD < toRD dd ∧ toRD dd ≤ toRD matD))

/-- Append the maturity date when the enumerated list is empty or ends
before maturity (source lines 107-108). -/
def withMaturity (cds : List Date) (matD : Date) : List Date :=
  match cds.getLast? with
  | none => [matD]
  | some l => if toRD l < toRD matD then cds ++ [matD] else cds

/-- The final coupon-date list the generation loop walks. -/
def couponDates (pt : PayType) (startD matD : Date) : List Date :=
  withMaturity (enumeratedCoupons pt startD matD) matD

/-- Actual/365 stub interest on `days` days (the source expression
`current_principal * rate * days_in_period / 365`). -/
def stub365 (p rate : ℚ) (days : ℤ) : ℚ := p * rate * days / 365

/-- The deferred-first-period test (source lines 110-145): whether the
first enumerated coupon is skipped, and if so the stub interest carried
forward as `deferred_interest`. -/
def skipInfo (pt : PayType) (startD : Date) (cds : List Date) (p rate : ℚ) :
    Bool × ℚ :=
  match cds with
  | [] => (false, 0)
  | f :: _ =>
    match pt with
    | .monthly =>
      if f.y = startD.y ∧ f.m = startD.m then
        (true, stub365 p rate (daysBetween startD f))
      else (false, 0)
    | .semiAnnual =>
      let spMar : Bool := decide (1 ≤ startD.m ∧ startD.m ≤ 3) ||
        decide (10 ≤ startD.m)
      let fpMar : Bool := f.m == 3
      if spMar = fpMar then
        if spMar = true ∧ 10 ≤ startD.m then
          if f.y = startD.y ∨ (f.y = startD.y + 1 ∧ f.m = 3) then
            (true, stub365 p rate (daysBetween startD f))
          else (false, 0)
        else if spMar = false ∧ 4 ≤ startD.m ∧ startD.m ≤ 9 then
          if f.y = startD.y ∧ f.m = 9 then
            (true, stub365 p rate (daysBetween startD f))
          else (false, 0)
        else (false, 0)
      else (false, 0)
    | _ => (false, 0)

/-- Per-period coupon amount (source lines 154-170): a fixed fraction of
the annual rate for a full period, actual/365 otherwise. -/
def periodAmount (pt : PayType) (p rate : ℚ) (days : ℤ) : ℚ :=
  match pt with
  | .monthly =>
    if 28 ≤ days ∧ days ≤ 31 then p * rate / 12 else stub365 p rate days
  | .other => 0
  | _ =>
    if 180 ≤ days ∧ days ≤ 185 then p * rate / 2 else stub365 p rate days

/-- Kinds of cash-flow events. -/
inductive EType
  | investment
  | coupon
  | capitalisation
  | repayment
deriving DecidableEq, Repr

/-- A cash-flow event: one row of `cash_flows_df`. -/
structure Event where
  date : Date
  amount : ℚ
  etype : EType
deriving DecidableEq, Repr

/-- The coupon-generation loop (source lines 147-184): walks the coupon
dates with their enumeration index, skips the first when the
deferred-stub rule applies, computes each period's amount on the running
principal, adds the deferred interest to the first surviving payment,
and compounds the running principal for reinvest bonds. Returns the
emitted events and the final running principal. -/
def couponLoop (pt : PayType) (rate : ℚ) (skip : Bool) (defi : ℚ) :
    List Date → ℕ → Date → ℚ → List Event × ℚ
  | [], _, _, p => ([], p)
  | dt :: rest, idx, last, p =>
    if idx = 0 ∧ skip = true then
      couponLoop pt rate skip defi rest (idx + 1) dt p
    else
      let base := periodAmount pt p rate (daysBetween last dt)
      let amt := if idx = 1 ∧ skip = true ∧ 0 < defi then base + defi else base
      let et := if pt = .reinvest then EType.capitalisation else EType.coupon
      let p2 := if pt = .reinvest then p + amt else p
      let res := couponLoop pt rate skip defi rest (idx + 1) dt p2
      (⟨dt, amt, et⟩ :: res.1, res.2)

/-- Terminal events at maturity (source lines 186-196): the principal
repayment, preceded for reinvest bonds with positive accumulated
capitalised interest by recharacterising that total as a final
Coupon-kind event appended after the repayment. -/
def terminalEvents (pt : PayType) (matD : Date) (p pEnd : ℚ) : List Event :=
  if pt = .reinvest then
    if 0 < pEnd - p then
      [⟨matD, p, .repayment⟩, ⟨matD, pEnd - p, .coupon⟩]
    else [⟨matD, p, .repayment⟩]
  else [⟨matD, p, .repayment⟩]

/-- The cash-flow list in construction order, before the final sort
(source lines 91-196). -/
def scheduleRaw (pt : PayType) (startD : Date) (term : ℕ) (p rate : ℚ) :
    List Event :=
  match pt with
  | .other =>
    ⟨startD, -p, .investment⟩ ::
      terminalEvents .other (addYears startD term) p p
  | _ =>
    let matD := addYears startD term
    let cds := couponDates pt startD matD
    let si := skipInfo pt startD cds p rate
    let lr := couponLoop pt rate si.1 si.2 cds 0 startD p
    ⟨startD, -p, .investment⟩ :: (lr.1 ++ terminalEvents pt matD p lr.2)

/-- Insertion of an event into a date-sorted list. The inserted event
always comes from earlier in the original list than the already-sorted
tail, so on date ties it is placed first, making the sort stable. -/
def insertByDate (x : Event) : List Event → List Event
  | [] => [x]
  | e :: es =>
    if toRD e.date < toRD x.date then e :: insertByDate x es
    else x :: e :: es

/-- Stable sort by date, modelling `sort_values(by='Date')` (source
line 198). The construction-order list is already date-sorted, on which
a stable sort is the identity. -/
def sortByDate : List Event → List Event
  | [] => []
  | e :: es => insertByDate e (sortByDate es)

/-- The cash-flow schedule `cash_flows_df` of
`_calculate_fixed_rate_metrics`. -/
def schedule (pt : PayType) (startD : Date) (term : ℕ) (p rate : ℚ) :
    List Event :=
  sortByDate (scheduleRaw pt startD term p rate)

/-- One row of the daily metrics DataFrame. -/
structure DailyRecord where
  dateRD : ℕ
  pb : ℚ
  couponCF : ℚ
  principalCF : ℚ
  ai : ℚ
  bv : ℚ
  totalCouponsPaid : ℚ
  totalCapitalised : ℚ
deriving DecidableEq, Repr

/-- Coupon cash flow booked on day offset `n` (source lines 209-215):
the sum of the Coupon-kind event amounts dated that day, events past
maturity being skipped. -/
def couponCFAt (startRD matRD : ℕ) (evts : List Event) (n : ℕ) : ℚ :=
  ((evts.filter (fun e => decide (e.etype = .coupon ∧ toRD e.date ≤ matRD ∧
    toRD e.date = startRD + n))).map Event.amount).sum

/-- Principal cash flow booked on day offset `n` (source lines 209-217):
the row loop assigns (not adds) the repayment amount, so the last
matching event wins. -/
def principalCFAt (startRD matRD : ℕ) (evts : List Event) (n : ℕ) : ℚ :=
  evts.foldl (fun acc e =>
    if e.etype = .repayment ∧ toRD e.date ≤ matRD ∧ toRD e.date = startRD + n
    then e.amount else acc) 0

/-- Group a date-keyed list by consecutive equal keys, summing the
values: models `groupby('Date')['Cash_Flow'].sum()` applied to a
date-sorted frame. -/
def groupSums : List (ℕ × ℚ) → List (ℕ × ℚ)
  | [] => []
  | (d, a) :: rest =>
    match groupSums rest with
    | [] => [(d, a)]
    | (d2, a2) :: t =>
      if d = d2 then (d, a + a2) :: t else (d, a) :: (d2, a2) :: t

/-- Principal balance on day offset `n` (source lines 221-231): for
reinvest bonds, the cumulative sum of the absolute per-date grouped
amounts of PrincipalInvestment and Capitalisation events dated at or
before that day (cumsum plus forward fill); for other bonds the constant
principal. -/
def pbAt (pt : PayType) (startRD : ℕ) (p : ℚ) (evts : List Event) (n : ℕ) :
    ℚ :=
  if pt = .reinvest then
    (((groupSums ((evts.filter (fun e =>
          decide (e.etype = .investment ∨ e.etype = .capitalisation))).map
        (fun e => (toRD e.date, e.amount)))).filter
      (fun g => decide (g.1 ≤ startRD + n))).map (fun g => |g.2|)).sum
  else p

/-- Cumulative coupons paid through day offset `n` (source line 234). -/
def tcpAt (startRD matRD : ℕ) (evts : List Event) (n : ℕ) : ℚ :=
  ((List.range (n + 1)).map (couponCFAt startRD matRD evts)).sum

/-- Cumulative interest capitalised through day offset `n` (source
lines 224-231): principal balance minus original principal for reinvest
bonds, and the initialised 0.0 otherwise. -/
def tccAt (pt : PayType) (startRD : ℕ) (p : ℚ) (evts : List Event) (n : ℕ) :
    ℚ :=
  if pt = .reinvest then pbAt pt startRD p evts n - p else 0

/-- The previous day's principal balance, `shift(1).fillna(principal)`
(source line 237). -/
def prevPBAt (pt : PayType) (startRD : ℕ) (p : ℚ) (evts : List Event)
    (n : ℕ) : ℚ :=
  if n = 0 then p else pbAt pt startRD p evts (n - 1)

/-- Day numbers of the Coupon/Capitalisation events: the source's
`coupon_dates_set` (line 240). -/
def couponRDs (evts : List Event) : List ℕ :=
  (evts.filter (fun e =>
    decide (e.etype = .coupon ∨ e.etype = .capitalisation))).map
    (fun e => toRD e.date)

/-- The running `last_coupon_date` of the accrual loop as of day offset
`n` (source lines 239-244), as a day number: the most recent event day
at or before the current one, initialised to the start date. -/
def lastCouponRD (startRD : ℕ) (S : List ℕ) : ℕ → ℕ
  | 0 => startRD
  | n + 1 =>
    if S.contains (startRD + (n + 1)) then startRD + (n + 1)
    else lastCouponRD startRD S n

/-- Accrued interest on day offset `n` (source lines 242-248): previous
day's principal times rate times days since the last coupon date over
365. The running `last_coupon_date` never exceeds the current day, so
the truncated subtraction equals Python's date difference. -/
def aiAt (pt : PayType) (startRD : ℕ) (p rate : ℚ) (evts : List Event)
    (n : ℕ) : ℚ :=
  prevPBAt pt startRD p evts n * rate *
    ((startRD + n - lastCouponRD startRD (couponRDs evts) n : ℕ) : ℚ) / 365

/-- The daily record for day offset `n`: all columns as computed by the
source, with the final-day adjustment (lines 253-256) zeroing exactly
the principal balance, accrued interest and book value on the
maturity-date row. -/
def recAt (pt : PayType) (startRD matRD : ℕ) (p rate : ℚ)
    (evts : List Event) (n : ℕ) : DailyRecord :=
  let pbv := pbAt pt startRD p evts n
  let aiv := aiAt pt startRD p rate evts n
  let base : DailyRecord :=
    { dateRD := startRD + n
      pb := pbv
      couponCF := couponCFAt startRD matRD evts n
      principalCF := principalCFAt startRD matRD evts n
      ai := aiv
      bv := pbv + aiv
      totalCouponsPaid := tcpAt startRD matRD evts n
      totalCapitalised := tccAt pt startRD p evts n }
  if startRD + n = matRD then { base with pb := 0, ai := 0, bv := 0 }
  else base

/-- The daily valuation builder (source lines 200-262): one record per
calendar day from start to maturity inclusive (`pd.date_range`), empty
when maturity precedes the start date. -/
def buildDaily (pt : PayType) (startD matD : Date) (p rate : ℚ)
    (evts : List Event) : List DailyRecord :=
  if toRD matD < toRD startD then []
  else
    (List.range (toRD matD - toRD startD + 1)).map
      (recAt pt (toRD startD) (toRD matD) p rate evts)

/-- The daily metrics DataFrame of `_calculate_fixed_rate_metrics`. -/
def dailyMetrics (pt : PayType) (startD : Date) (term : ℕ) (p rate : ℚ) :
    List DailyRecord :=
  buildDaily pt startD (addYears startD term) p rate
    (schedule pt startD term p rate)

/-- Placeholder date used as a `getD` default. -/
def dfltD : Date := ⟨0, 0, 0⟩

/-- Placeholder event used as a `getD` default. -/
def dfltE : Event := ⟨dfltD, 0, EType.investment⟩

/-- Placeholder daily record used as a `getD` default. -/
def dfltR : DailyRecord := ⟨0, 0, 0, 0, 0, 0, 0, 0⟩

theorem daysInMonth_pos (y m : ℕ) : 28 ≤ daysInMonth y m := by
  unfold daysInMonth
  split_ifs <;> omega

theorem validDate_addYears {dt : Date} (h : ValidDate dt) (n : ℕ) :
    ValidDate (addYears dt n) := by
  obtain ⟨h1, h2, h3, h4, h5⟩ := h
  have hpos := daysInMonth_pos (dt.y + n) dt.m
  show 1 ≤ dt.y + n ∧ 1 ≤ dt.m ∧ dt.m ≤ 12 ∧
    1 ≤ min dt.d (daysInMonth (dt.y + n) dt.m) ∧
    min dt.d (daysInMonth (dt.y + n) dt.m) ≤ daysInMonth (dt.y + n) dt.m
  exact ⟨by omega, h2, h3, Nat.le_min.mpr ⟨h4, by omega⟩,
    Nat.min_le_right _ _⟩

theorem toRD_lt_addYears {dt : Date} (h : ValidDate dt) {n : ℕ}
    (hn : 1 ≤ n) : toRD dt < toRD (addYears dt n) := by
  refine toRD_lt_of_dateLT h (validDate_addYears h n) ?_
  left
  simp [addYears]
  omega

theorem insertByDate_cons_of_le {e x : Event} {xs : List Event}
    (h : toRD e.date ≤ toRD x.date) :
    insertByDate e (x :: xs) = e :: x :: xs := by
  unfold insertByDate
  rw [if_neg (by omega)]

/-- A stable sort leaves a date-sorted list unchanged. -/
theorem sortByDate_eq_self {l : List Event}
    (h : l.Pairwise (fun a b => toRD a.date ≤ toRD b.date)) :
    sortByDate l = l := by
  induction l with
  | nil => rfl
  | cons e es ih =>
    rw [sortByDate, ih (List.Pairwise.of_cons h)]
    cases es with
    | nil => rfl
    | cons x xs =>
      exact insertByDate_cons_of_le ((List.pairwise_cons.mp h).1 x
        (List.mem_cons_self x xs))

theorem dateLT_trichotomy (a b : Date) : dateLT a b ∨ a = b ∨ dateLT b a := by
  obtain ⟨ay, am, ad⟩ := a
  obtain ⟨by', bm, bd⟩ := b
  unfold dateLT
  simp only [Date.mk.injEq]
  omega

theorem toRD_inj {a b : Date} (ha : ValidDate a) (hb : ValidDate b)
    (h : toRD a = toRD b) : a = b := by
  rcases dateLT_trichotomy a b with hlt | he | hlt
  · exact absurd (toRD_lt_of_dateLT ha hb hlt) (by omega)
  · exact he
  · exact absurd (toRD_lt_of_dateLT hb ha hlt) (by omega)

theorem validDate_mar31 {y : ℕ} (hy : 1 ≤ y) : ValidDate ⟨y, 3, 31⟩ := by
  refine ⟨hy, by norm_num, by norm_num, by norm_num, ?_⟩
  norm_num [daysInMonth]

theorem validDate_sep30 {y : ℕ} (hy : 1 ≤ y) : ValidDate ⟨y, 9, 30⟩ := by
  refine ⟨hy, by norm_num, by norm_num, by norm_num, ?_⟩
  norm_num [daysInMonth]

theorem mem_anchorsFrom {x : Date} :
    ∀ {y k : ℕ}, x ∈ anchorsFrom y k →
      ∃ j, j < k ∧ (x = ⟨y + j, 3, 31⟩ ∨ x = ⟨y + j, 9, 30⟩) := by
  intro y k
  induction k generalizing y with
  | zero => intro h; simp [anchorsFrom] at h
  | succ k ih =>
    intro h
    simp only [anchorsFrom, List.mem_cons] at h
    rcases h with h | h | h
    · exact ⟨0, by omega, Or.inl (by simpa using h)⟩
    · exact ⟨0, by omega, Or.inr (by simpa using h)⟩
    · obtain ⟨j, hj, hx⟩ := ih h
      refine ⟨j + 1, by omega, ?_⟩
      rcases hx with hx | hx
      · left; rw [hx]; congr 1; omega
      · right; rw [hx]; congr 1; omega

theorem anchorsFrom_pairwise {k y : ℕ} (hy : 1 ≤ y) :
    (anchorsFrom y k).Pairwise (fun a b => toRD a < toRD b) := by
  induction k generalizing y with
  | zero => exact List.Pairwise.nil
  | succ k ih =>
    have hyr : ∀ z ∈ anchorsFrom (y + 1) k, y < z.y ∧ ValidDate z := by
      intro z hz
      obtain ⟨j, hj, hx⟩ := mem_anchorsFrom hz
      rcases hx with hx | hx <;> rw [hx]
      · exact ⟨(by omega : y < y + 1 + j), validDate_mar31 (by omega)⟩
      · exact ⟨(by omega : y < y + 1 + j), validDate_sep30 (by omega)⟩
    refine List.pairwise_cons.mpr ⟨?_, List.pairwise_cons.mpr ⟨?_, ih (by omega)⟩⟩
    · intro z hz
      rcases List.mem_cons.mp hz with hz | hz
      · rw [hz]
        exact toRD_lt_of_dateLT (validDate_mar31 hy) (validDate_sep30 hy)
          (Or.inr ⟨rfl, Or.inl (by norm_num)⟩)
      · obtain ⟨hzy, hzv⟩ := hyr z hz
        exact toRD_lt_of_dateLT (validDate_mar31 hy) hzv (Or.inl hzy)
    · intro z hz
      obtain ⟨hzy, hzv⟩ := hyr z hz
      exact toRD_lt_of_dateLT (validDate_sep30 hy) hzv (Or.inl hzy)

theorem validDate_monthEnd {i : ℕ} (h : 12 ≤ i) : ValidDate (monthEnd i) := by
  have h2 := daysInMonth_pos (i / 12) (i % 12 + 1)
  show 1 ≤ i / 12 ∧ 1 ≤ i % 12 + 1 ∧ i % 12 + 1 ≤ 12 ∧
    1 ≤ daysInMonth (i / 12) (i % 12 + 1) ∧
    daysInMonth (i / 12) (i % 12 + 1) ≤ daysInMonth (i / 12) (i % 12 + 1)
  exact ⟨by omega, by omega, by omega, by omega, le_refl _⟩

theorem monthEnd_toRD_step {i : ℕ} (h : 12 ≤ i) :
    toRD (monthEnd i) < toRD (monthEnd (i + 1)) := by
  refine toRD_lt_of_dateLT (validDate_monthEnd h)
    (validDate_monthEnd (by omega)) ?_
  show i / 12 < (i + 1) / 12 ∨ (i / 12 = (i + 1) / 12 ∧
    (i % 12 + 1 < (i + 1) % 12 + 1 ∨ (i % 12 + 1 = (i + 1) % 12 + 1 ∧
      daysInMonth (i / 12) (i % 12 + 1) <
        daysInMonth ((i + 1) / 12) ((i + 1) % 12 + 1))))
  omega

theorem monthEnd_toRD_mono {i j : ℕ} (h12 : 12 ≤ i) (hij : i < j) :
    toRD (monthEnd i) < toRD (monthEnd j) := by
  obtain ⟨c, rfl⟩ : ∃ c, j = i + 1 + c := ⟨j - (i + 1), by omega⟩
  clear hij
  induction c with
  | zero => exact monthEnd_toRD_step h12
  | succ c ih => exact lt_trans ih (monthEnd_toRD_step (by omega))

theorem twelve_le_monthIndex {s : Date} (hs : ValidDate s) :
    12 ≤ monthIndex s := by
  obtain ⟨h1, h2, _, _, _⟩ := hs
  unfold monthIndex
  omega

theorem monthEndsUpTo_pairwise {s mat : Date} (hs : ValidDate s) :
    (monthEndsUpTo s mat).Pairwise (fun a b => toRD a < toRD b) := by
  unfold monthEndsUpTo
  refine List.Pairwise.filter _ ?_
  rw [List.pairwise_map]
  refine (List.pairwise_lt_range _).imp ?_
  intro a b hab
  exact monthEnd_toRD_mono (by have := twelve_le_monthIndex hs; omega)
    (by omega)

theorem mem_monthEndsUpTo {s mat x : Date} (hx : x ∈ monthEndsUpTo s mat) :
    (∃ i, monthIndex s ≤ i ∧ x = monthEnd i) ∧ toRD x ≤ toRD mat := by
  unfold monthEndsUpTo at hx
  obtain ⟨hmem, hle⟩ := List.mem_filter.mp hx
  obtain ⟨i, hi, rfl⟩ := List.mem_map.mp hmem
  refine ⟨⟨monthIndex s + i, by omega, rfl⟩, by simpa using hle⟩

theorem enumeratedCoupons_pairwise (pt : PayType) {s mat : Date}
    (hs : ValidDate s) :
    (enumeratedCoupons pt s mat).Pairwise (fun a b => toRD a < toRD b) := by
  cases pt <;> unfold enumeratedCoupons <;>
    first
      | exact List.Pairwise.filter _ (monthEndsUpTo_pairwise hs)
      | exact List.Pairwise.filter _ (anchorsFrom_pairwise hs.1)

theorem mem_enumeratedCoupons (pt : PayType) {s mat x : Date}
    (hs : ValidDate s) (hx : x ∈ enumeratedCoupons pt s mat) :
    ValidDate x ∧ toRD s < toRD x ∧ toRD x ≤ toRD mat := by
  have hanch : x ∈ (allCouponDatesSA s mat).filter
      (fun dd => decide (toRD s < toRD dd ∧ toRD dd ≤ toRD mat)) →
      ValidDate x ∧ toRD s < toRD x ∧ toRD x ≤ toRD mat := by
    intro hx
    obtain ⟨hmem, hdec⟩ := List.mem_filter.mp hx
    obtain ⟨j, hj, hsh⟩ := mem_anchorsFrom hmem
    have hv : ValidDate x := by
      rcases hsh with hsh | hsh <;> rw [hsh]
      · exact validDate_mar31 (by have := hs.1; omega)
      · exact validDate_sep30 (by have := hs.1; omega)
    simp only [decide_eq_true_eq] at hdec
    exact ⟨hv, hdec.1, hdec.2⟩
  cases pt with
  | monthly =>
    unfold enumeratedCoupons at hx
    obtain ⟨hmem, hdec⟩ := List.mem_filter.mp hx
    obtain ⟨⟨i, hi, rfl⟩, hle⟩ := mem_monthEndsUpTo hmem
    simp only [decide_eq_true_eq] at hdec
    exact ⟨validDate_monthEnd (le_trans (twelve_le_monthIndex hs) hi),
      hdec, hle⟩
  | semiAnnual => exact hanch hx
  | reinvest => exact hanch hx
  | other => exact hanch hx

theorem le_toRD_getLast {z : Date} :
    ∀ {l : List Date}, l.Pairwise (fun a b => toRD a < toRD b) →
      l.getLast? = some z → ∀ x ∈ l, toRD x ≤ toRD z := by
  intro l
  induction l with
  | nil => intro _ hz x hx; simp at hx
  | cons a t ih =>
    intro hp hz x hx
    cases t with
    | nil =>
      simp only [List.getLast?_singleton, Option.some.injEq] at hz
      rcases List.mem_singleton.mp hx with rfl
      exact le_of_eq (congrArg toRD hz)
    | cons b t2 =>
      rw [List.getLast?_cons_cons] at hz
      rcases List.mem_cons.mp hx with rfl | hx2
      · exact le_of_lt ((List.pairwise_cons.mp hp).1 z
          (List.mem_of_mem_getLast? hz))
      · exact ih (List.Pairwise.of_cons hp) hz x hx2

/-- Structure of the coupon-date list: strictly increasing, all dates
strictly after the start and at or before maturity, and ending exactly
at the maturity date. -/
theorem withMaturity_eq_some {cds : List Date} {mat l : Date}
    (h : cds.getLast? = some l) :
    withMaturity cds mat = if toRD l < toRD mat then cds ++ [mat] else cds := by
  unfold withMaturity
  rw [h]

theorem withMaturity_eq_none {cds : List Date} {mat : Date}
    (h : cds.getLast? = none) : withMaturity cds mat = [mat] := by
  unfold withMaturity
  rw [h]

set_option maxRecDepth 4000 in
theorem couponDates_spec (pt : PayType) {startD matD : Date}
    (hv : ValidDate startD) (hvm : ValidDate matD)
    (hsm : toRD startD < toRD matD) :
    (couponDates pt startD matD).Pairwise (fun a b => toRD a < toRD b) ∧
    (∀ x ∈ couponDates pt startD matD,
        ValidDate x ∧ toRD startD < toRD x ∧ toRD x ≤ toRD matD) ∧
    (couponDates pt startD matD).getLast? = some matD := by
  have hp := @enumeratedCoupons_pairwise pt startD matD hv
  have hbd : ∀ x ∈ enumeratedCoupons pt startD matD,
      ValidDate x ∧ toRD startD < toRD x ∧ toRD x ≤ toRD matD :=
    fun x hx => mem_enumeratedCoupons pt hv hx
  have hcd : couponDates pt startD matD =
      withMaturity (enumeratedCoupons pt startD matD) matD := rfl
  cases hL : (enumeratedCoupons pt startD matD).getLast? with
  | none =>
    rw [hcd, withMaturity_eq_none hL]
    refine ⟨List.pairwise_singleton _ _, ?_, rfl⟩
    intro x hx
    rcases List.mem_singleton.mp hx with rfl
    exact ⟨hvm, hsm, le_refl _⟩
  | some l =>
    have hlmem : l ∈ enumeratedCoupons pt startD matD :=
      List.mem_of_mem_getLast? hL
    have hle := le_toRD_getLast hp hL
    have hlb := hbd l hlmem
    rw [hcd, withMaturity_eq_some hL]
    by_cases hlt : toRD l < toRD matD
    · rw [if_pos hlt]
      refine ⟨?_, ?_, List.getLast?_concat _⟩
      · refine List.pairwise_append.mpr
          ⟨hp, List.pairwise_singleton _ _, ?_⟩
        intro a ha b hb
        rcases List.mem_singleton.mp hb with rfl
        exact lt_of_le_of_lt (hle a ha) hlt
      · intro x hx
        rcases List.mem_append.mp hx with hx | hx
        · exact hbd x hx
        · rcases List.mem_singleton.mp hx with rfl
          exact ⟨hvm, hsm, le_refl _⟩
    · rw [if_neg hlt]
      have heq : toRD l = toRD matD := by
        have h1 := hlb.2.2
        omega
      have hlm : l = matD := toRD_inj hlb.1 hvm heq
      rw [hlm] at hL
      exact ⟨hp, hbd, hL⟩

theorem map_date_getD {es : List Event} {ds : List Date}
    (h : es.map Event.date = ds) {k : ℕ} (hk : k < es.length) :
    (es.getD k dfltE).date = ds.getD k dfltD := by
  subst h
  rw [List.getD_eq_getElem?_getD, List.getD_eq_getElem?_getD,
    List.getElem?_map, List.getElem?_eq_getElem hk]
  rfl

theorem couponLoop_nil (pt : PayType) (rate defi : ℚ) (skip : Bool)
    (idx : ℕ) (last : Date) (p : ℚ) :
    couponLoop pt rate skip defi [] idx last p = ([], p) := rfl

theorem couponLoop_cons (pt : PayType) (rate defi : ℚ) (skip : Bool)
    (dt : Date) (rest : List Date) (idx : ℕ) (last : Date) (p : ℚ)
    (h : ¬(idx = 0 ∧ skip = true)) :
    couponLoop pt rate skip defi (dt :: rest) idx last p =
      (let base := periodAmount pt p rate (daysBetween last dt)
       let amt := if idx = 1 ∧ skip = true ∧ 0 < defi then base + defi
         else base
       let et := if pt = .reinvest then EType.capitalisation else EType.coupon
       let p2 := if pt = .reinvest then p + amt else p
       let res := couponLoop pt rate skip defi rest (idx + 1) dt p2
       (⟨dt, amt, et⟩ :: res.1, res.2)) := by
  rw [couponLoop, if_neg h]

theorem couponLoop_skip_head (pt : PayType) (rate defi : ℚ) (dt : Date)
    (rest : List Date) (last : Date) (p : ℚ) :
    couponLoop pt rate true defi (dt :: rest) 0 last p =
      couponLoop pt rate true defi rest 1 dt p := by
  rw [couponLoop, if_pos ⟨rfl, rfl⟩]

theorem couponLoop_dates (pt : PayType) (rate defi : ℚ) (skip : Bool) :
    ∀ (ds : List Date) (idx : ℕ) (last : Date) (p : ℚ),
      (skip = true → 1 ≤ idx) →
      (couponLoop pt rate skip defi ds idx last p).1.map Event.date = ds := by
  intro ds
  induction ds with
  | nil => intro idx last p h; rfl
  | cons dt rest ih =>
    intro idx last p h
    rw [couponLoop_cons pt rate defi skip dt rest idx last p
      (by rintro ⟨h0, hs⟩; have := h hs; omega)]
    simp only [List.map_cons]
    rw [ih (idx + 1) dt _ (fun _ => by omega)]

theorem couponLoop_etype (pt : PayType) (rate defi : ℚ) (skip : Bool) :
    ∀ (ds : List Date) (idx : ℕ) (last : Date) (p : ℚ) (e : Event),
      (skip = true → 1 ≤ idx) →
      e ∈ (couponLoop pt rate skip defi ds idx last p).1 →
      e.etype = (if pt = .reinvest then EType.capitalisation
        else EType.coupon) := by
  intro ds
  induction ds with
  | nil => intro idx last p e h hmem; simp [couponLoop_nil] at hmem
  | cons dt rest ih =>
    intro idx last p e h hmem
    rw [couponLoop_cons pt rate defi skip dt rest idx last p
      (by rintro ⟨h0, hs⟩; have := h hs; omega)] at hmem
    simp only [List.mem_cons] at hmem
    rcases hmem with rfl | hmem
    · rfl
    · exact ih (idx + 1) dt _ e (fun _ => by omega) hmem

theorem couponLoop_pEnd (pt : PayType) (rate defi : ℚ) (skip : Bool) :
    ∀ (ds : List Date) (idx : ℕ) (last : Date) (p : ℚ),
      (skip = true → 1 ≤ idx) →
      (couponLoop pt rate skip defi ds idx last p).2 =
        (if pt = .reinvest then
          p + (((couponLoop pt rate skip defi ds idx last p).1.map
            Event.amount).sum)
        else p) := by
  intro ds
  induction ds with
  | nil => intro idx last p h; simp [couponLoop_nil]
  | cons dt rest ih =>
    intro idx last p h
    rw [couponLoop_cons pt rate defi skip dt rest idx last p
      (by rintro ⟨h0, hs⟩; have := h hs; omega)]
    simp only [List.map_cons, List.sum_cons]
    rw [ih (idx + 1) dt _ (fun _ => by omega)]
    by_cases hre : pt = PayType.reinvest
    · simp only [if_pos hre]
      ring
    · simp only [if_neg hre]

theorem couponLoop_amount (pt : PayType) (rate defi : ℚ) (skip : Bool) :
    ∀ (ds : List Date) (idx : ℕ) (last : Date) (p : ℚ),
      (skip = true → 1 ≤ idx) →
      ∀ k, k < ds.length →
        ((couponLoop pt rate skip defi ds idx last p).1.getD k dfltE).amount =
          periodAmount pt
            (if pt = .reinvest then
              p + ((((couponLoop pt rate skip defi ds idx last p).1.take
                k).map Event.amount).sum)
            else p)
            rate
            (daysBetween (if k = 0 then last else ds.getD (k - 1) dfltD)
              (ds.getD k dfltD))
          + (if idx + k = 1 ∧ skip = true ∧ 0 < defi then defi else 0) := by
  intro ds
  induction ds with
  | nil => intro idx last p h k hk; simp at hk
  | cons dt rest ih =>
    intro idx last p h k hk
    rw [couponLoop_cons pt rate defi skip dt rest idx last p
      (by rintro ⟨h0, hs⟩; have := h hs; omega)]
    cases k with
    | zero =>
      by_cases hb : idx = 1 ∧ skip = true ∧ 0 < defi <;> simp [hb]
    | succ k =>
      simp only [List.getD_cons_succ, List.take_succ_cons, List.map_cons,
        List.sum_cons, Nat.succ_sub_one]
      rw [if_neg (Nat.succ_ne_zero k)]
      rw [ih (idx + 1) dt _ (fun _ => by omega) k (by simpa using hk)]
      have hprev : (if k = 0 then dt else rest.getD (k - 1) dfltD) =
          (dt :: rest).getD k dfltD := by
        cases k with
        | zero => simp
        | succ k2 => simp
      rw [hprev]
      have hidx : idx + 1 + k = idx + (k + 1) := by omega
      rw [hidx]
      by_cases hre : pt = PayType.reinvest
      · simp only [if_pos hre]
        rw [add_assoc]
      · simp only [if_neg hre]

theorem skipInfo_nil (pt : PayType) (s : Date) (p rate : ℚ) :
    skipInfo pt s [] p rate = (false, 0) := rfl

theorem skipInfo_reinvest (s : Date) (cds : List Date) (p rate : ℚ) :
    skipInfo .reinvest s cds p rate = (false, 0) := by
  cases cds <;> rfl

theorem skipInfo_other (s : Date) (cds : List Date) (p rate : ℚ) :
    skipInfo .other s cds p rate = (false, 0) := by
  cases cds <;> rfl

/-- Whenever the deferred-first-period rule fires, the payment type is
monthly with the first coupon in the start month's year, or semi-annual
with the first coupon in the start year, or in the next year with a
March coupon after an October-December start. -/
theorem skip_eq_true_cases {pt : PayType} {s : Date} {cds : List Date}
    {p rate : ℚ} (h : (skipInfo pt s cds p rate).1 = true) :
    ∃ f rest, cds = f :: rest ∧
      ((pt = .monthly ∧ f.y = s.y ∧ f.m = s.m) ∨
       (pt = .semiAnnual ∧
         (f.y = s.y ∨ (f.y = s.y + 1 ∧ f.m = 3 ∧ 10 ≤ s.m)))) ∧
      (skipInfo pt s cds p rate).2 = stub365 p rate (daysBetween s f) := by
  cases cds with
  | nil => rw [skipInfo_nil] at h; simp at h
  | cons f rest =>
    refine ⟨f, rest, rfl, ?_, ?_⟩
    · cases pt with
      | monthly =>
        simp only [skipInfo] at h
        split_ifs at h with hc <;>
          first
            | exact Or.inl ⟨rfl, hc.1, hc.2⟩
            | simp at h
      | semiAnnual =>
        simp only [skipInfo] at h
        split_ifs at h with hc1 hc2 hc3 hc4 hc5 <;>
          first
            | exact hc3.elim (fun hy => Or.inr ⟨rfl, Or.inl hy⟩)
                (fun hym => Or.inr ⟨rfl, Or.inr ⟨hym.1, hym.2, hc2.2⟩⟩)
            | exact Or.inr ⟨rfl, Or.inl hc5.1⟩
            | simp at h
      | reinvest => rw [skipInfo_reinvest] at h; simp at h
      | other => rw [skipInfo_other] at h; simp at h
    · cases pt with
      | monthly =>
        simp only [skipInfo] at h ⊢
        split_ifs at h ⊢ <;> first | rfl | simp at h
      | semiAnnual =>
        simp only [skipInfo] at h ⊢
        split_ifs at h ⊢ <;> first | rfl | simp at h
      | reinvest => rw [skipInfo_reinvest] at h; simp at h
      | other => rw [skipInfo_other] at h; simp at h

theorem terminalEvents_not_reinvest {pt : PayType} (hpt : pt ≠ .reinvest)
    (matD : Date) (p pEnd : ℚ) :
    terminalEvents pt matD p pEnd = [⟨matD, p, .repayment⟩] := by
  unfold terminalEvents
  rw [if_neg hpt]

theorem terminalEvents_reinvest_pos {matD : Date} {p pEnd : ℚ}
    (h : 0 < pEnd - p) :
    terminalEvents .reinvest matD p pEnd =
      [⟨matD, p, .repayment⟩, ⟨matD, pEnd - p, .coupon⟩] := by
  unfold terminalEvents
  rw [if_pos rfl, if_pos h]

theorem terminalEvents_reinvest_nonpos {matD : Date} {p pEnd : ℚ}
    (h : ¬(0 < pEnd - p)) :
    terminalEvents .reinvest matD p pEnd = [⟨matD, p, .repayment⟩] := by
  unfold terminalEvents
  rw [if_pos rfl, if_neg h]

theorem mem_terminalEvents {pt : PayType} {matD : Date} {p pEnd : ℚ}
    {e : Event} (h : e ∈ terminalEvents pt matD p pEnd) :
    e.date = matD ∧ (e.etype = .repayment ∨ e.etype = .coupon) := by
  by_cases hre : pt = PayType.reinvest
  · subst hre
    by_cases hpos : 0 < pEnd - p
    · rw [terminalEvents_reinvest_pos hpos] at h
      simp only [List.mem_cons, List.mem_singleton, List.not_mem_nil,
        or_false] at h
      rcases h with rfl | rfl
      · exact ⟨rfl, Or.inl rfl⟩
      · exact ⟨rfl, Or.inr rfl⟩
    · rw [terminalEvents_reinvest_nonpos hpos] at h
      simp only [List.mem_singleton] at h
      subst h
      exact ⟨rfl, Or.inl rfl⟩
  · rw [terminalEvents_not_reinvest hre] at h
    simp only [List.mem_singleton] at h
    subst h
    exact ⟨rfl, Or.inl rfl⟩

/-- The skip decision and deferred interest actually used by
`scheduleRaw`. -/
def theSkip (pt : PayType) (startD : Date) (term : ℕ) (p rate : ℚ) :
    Bool × ℚ :=
  skipInfo pt startD (couponDates pt startD (addYears startD term)) p rate

/-- The coupon-loop output actually used by `scheduleRaw`. -/
def loopOut (pt : PayType) (startD : Date) (term : ℕ) (p rate : ℚ) :
    List Event × ℚ :=
  couponLoop pt rate (theSkip pt startD term p rate).1
    (theSkip pt startD term p rate).2
    (couponDates pt startD (addYears startD term)) 0 startD p

theorem scheduleRaw_decomp {pt : PayType} (hpt : pt ≠ .other)
    (startD : Date) (term : ℕ) (p rate : ℚ) :
    scheduleRaw pt startD term p rate =
      ⟨startD, -p, .investment⟩ ::
        ((loopOut pt startD term p rate).1 ++
          terminalEvents pt (addYears startD term) p
            (loopOut pt startD term p rate).2) := by
  cases pt with
  | semiAnnual => rfl
  | monthly => rfl
  | reinvest => rfl
  | other => exact absurd rfl hpt

theorem scheduleRaw_other (startD : Date) (term : ℕ) (p rate : ℚ) :
    scheduleRaw .other startD term p rate =
      [⟨startD, -p, .investment⟩,
       ⟨addYears startD term, p, .repayment⟩] := rfl

theorem loopOut_dates (pt : PayType) (startD : Date) (term : ℕ)
    (p rate : ℚ) :
    (loopOut pt startD term p rate).1.map Event.date =
      (if (theSkip pt startD term p rate).1 = true
       then (couponDates pt startD (addYears startD term)).tail
       else couponDates pt startD (addYears startD term)) := by
  unfold loopOut theSkip
  cases hsk : (skipInfo pt startD
      (couponDates pt startD (addYears startD term)) p rate).1 with
  | false =>
    rw [if_neg (by simp)]
    exact couponLoop_dates pt rate _ false _ 0 startD p
      (fun h => by simp at h)
  | true =>
    rw [if_pos rfl]
    obtain ⟨f, rest, hcds, _, _⟩ := skip_eq_true_cases hsk
    rw [hcds, couponLoop_skip_head,
      couponLoop_dates pt rate _ true rest 1 f p (fun _ => le_refl 1)]
    rfl

theorem loopOut_pEnd (pt : PayType) (startD : Date) (term : ℕ)
    (p rate : ℚ) :
    (loopOut pt startD term p rate).2 =
      (if pt = .reinvest then
        p + ((loopOut pt startD term p rate).1.map Event.amount).sum
      else p) := by
  unfold loopOut theSkip
  cases hsk : (skipInfo pt startD
      (couponDates pt startD (addYears startD term)) p rate).1 with
  | false =>
    exact couponLoop_pEnd pt rate _ false _ 0 startD p
      (fun h => by simp at h)
  | true =>
    obtain ⟨f, rest, hcds, _, _⟩ := skip_eq_true_cases hsk
    rw [hcds, couponLoop_skip_head,
      couponLoop_pEnd pt rate _ true rest 1 f p (fun _ => le_refl 1)]

theorem loopOut_etype {pt : PayType} {startD : Date} {term : ℕ}
    {p rate : ℚ} {e : Event} (h : e ∈ (loopOut pt startD term p rate).1) :
    e.etype = (if pt = .reinvest then EType.capitalisation
      else EType.coupon) := by
  unfold loopOut theSkip at h
  revert h
  cases hsk : (skipInfo pt startD
      (couponDates pt startD (addYears startD term)) p rate).1 with
  | false =>
    intro h
    exact couponLoop_etype pt rate _ false _ 0 startD p e
      (fun h2 => by simp at h2) h
  | true =>
    intro h
    obtain ⟨f, rest, hcds, _, _⟩ := skip_eq_true_cases hsk
    rw [hcds, couponLoop_skip_head] at h
    exact couponLoop_etype pt rate _ true rest 1 f p e
      (fun _ => le_refl 1) h

theorem terminalEvents_pairwise (pt : PayType) (matD : Date) (p pEnd : ℚ) :
    (terminalEvents pt matD p pEnd).Pairwise
      (fun a b => toRD a.date ≤ toRD b.date) := by
  by_cases hre : pt = PayType.reinvest
  · subst hre
    by_cases hpos : 0 < pEnd - p
    · rw [terminalEvents_reinvest_pos hpos]
      refine List.pairwise_cons.mpr ⟨?_, List.pairwise_singleton _ _⟩
      intro e he
      rcases List.mem_singleton.mp he with rfl
      exact le_refl _
    · rw [terminalEvents_reinvest_nonpos hpos]
      exact List.pairwise_singleton _ _
  · rw [terminalEvents_not_reinvest hre]
    exact List.pairwise_singleton _ _

theorem loopOut_date_mem {pt : PayType} {startD : Date} {term : ℕ}
    {p rate : ℚ} {e : Event} (he : e ∈ (loopOut pt startD term p rate).1) :
    e.date ∈ couponDates pt startD (addYears startD term) := by
  have hm : e.date ∈ (loopOut pt startD term p rate).1.map Event.date :=
    List.mem_map_of_mem Event.date he
  rw [loopOut_dates] at hm
  split_ifs at hm
  · exact List.mem_of_mem_tail hm
  · exact hm

theorem loopOut_pairwise (pt : PayType) {startD : Date} {term : ℕ}
    (hv : ValidDate startD) (hvm : ValidDate (addYears startD term))
    (hsm : toRD startD < toRD (addYears startD term)) (p rate : ℚ) :
    (loopOut pt startD term p rate).1.Pairwise
      (fun a b => toRD a.date < toRD b.date) := by
  obtain ⟨hpair, _, _⟩ := couponDates_spec pt hv hvm hsm
  have hmap : ((loopOut pt startD term p rate).1.map Event.date).Pairwise
      (fun a b => toRD a < toRD b) := by
    rw [loopOut_dates]
    split_ifs
    · exact hpair.sublist (List.tail_sublist _)
    · exact hpair
  exact List.Pairwise.of_map Event.date (fun a b h => h) hmap

theorem scheduleRaw_sorted (pt : PayType) {startD : Date} {term : ℕ}
    (hv : ValidDate startD) (ht : 1 ≤ term) (p rate : ℚ) :
    (scheduleRaw pt startD term p rate).Pairwise
      (fun a b => toRD a.date ≤ toRD b.date) := by
  have hvm : ValidDate (addYears startD term) := validDate_addYears hv term
  have hsm : toRD startD < toRD (addYears startD term) :=
    toRD_lt_addYears hv ht
  by_cases hpt : pt = PayType.other
  · subst hpt
    rw [scheduleRaw_other]
    refine List.pairwise_cons.mpr ⟨?_, List.pairwise_singleton _ _⟩
    intro e he
    rcases List.mem_singleton.mp he with rfl
    exact le_of_lt hsm
  · rw [scheduleRaw_decomp hpt]
    obtain ⟨hpair, hmem, hlast⟩ := couponDates_spec pt hv hvm hsm
    refine List.pairwise_cons.mpr ⟨?_, List.pairwise_append.mpr
      ⟨(loopOut_pairwise pt hv hvm hsm p rate).imp (fun h => le_of_lt h),
        terminalEvents_pairwise pt _ p _, ?_⟩⟩
    · intro e he
      rcases List.mem_append.mp he with he | he
      · exact le_of_lt (hmem e.date (loopOut_date_mem he)).2.1
      · rw [(mem_terminalEvents he).1]
        exact le_of_lt hsm
    · intro a ha b hb
      rw [(mem_terminalEvents hb).1]
      exact (hmem a.date (loopOut_date_mem ha)).2.2

theorem schedule_eq_raw (pt : PayType) {startD : Date} {term : ℕ}
    (hv : ValidDate startD) (ht : 1 ≤ term) (p rate : ℚ) :
    schedule pt startD term p rate = scheduleRaw pt startD term p rate :=
  sortByDate_eq_self (scheduleRaw_sorted pt hv ht p rate)

theorem skipInfo_monthly_eq {s f : Date} {rest : List Date} {p rate : ℚ}
    (h : f.y = s.y ∧ f.m = s.m) :
    skipInfo .monthly s (f :: rest) p rate =
      (true, stub365 p rate (daysBetween s f)) := by
  simp only [skipInfo]
  rw [if_pos h]

theorem skipInfo_sa_sep_eq {s : Date} {rest : List Date} {p rate : ℚ}
    (h4 : 4 ≤ s.m) (h9 : s.m ≤ 9) :
    skipInfo .semiAnnual s ((⟨s.y, 9, 30⟩ : Date) :: rest) p rate =
      (true, stub365 p rate (daysBetween s ⟨s.y, 9, 30⟩)) := by
  simp only [skipInfo]
  have h1 : (decide (1 ≤ s.m ∧ s.m ≤ 3) || decide (10 ≤ s.m)) = false := by
    simp only [Bool.or_eq_false_iff, decide_eq_false_iff_not, not_and,
      not_le]
    omega
  rw [h1]
  norm_num
  exact ⟨h4, h9⟩

theorem skipInfo_sa_mar_eq {s : Date} {rest : List Date} {p rate : ℚ}
    (h10 : 10 ≤ s.m) :
    skipInfo .semiAnnual s ((⟨s.y + 1, 3, 31⟩ : Date) :: rest) p rate =
      (true, stub365 p rate (daysBetween s ⟨s.y + 1, 3, 31⟩)) := by
  simp only [skipInfo]
  have h1 : (decide (1 ≤ s.m ∧ s.m ≤ 3) || decide (10 ≤ s.m)) = true := by
    simp only [Bool.or_eq_true, decide_eq_true_eq]
    omega
  rw [h1]
  norm_num
  exact h10

/-- C3: for principal 1 000 000, start 2023-10-20, term 3,
rate 0.0775, semi-annual payments: no Coupon/Capitalisation event is
dated 2024-03-31 (the Oct 1 - Mar 31 period is shared with the start
date, so that coupon is skipped), and the first emitted coupon is on
2024-09-30 with amount equal to the actual/365 stub for
[2023-10-20, 2024-03-31) plus the full-period amount
principal x rate / 2. -/
theorem claim_C3 :
    (∀ e ∈ schedule .semiAnnual ⟨2023, 10, 20⟩ 3 1000000 (31/400),
      (e.etype = EType.coupon ∨ e.etype = EType.capitalisation) →
        e.date ≠ ⟨2024, 3, 31⟩) ∧
    ((schedule .semiAnnual ⟨2023, 10, 20⟩ 3 1000000 (31/400)).filter
      (fun e => decide (e.etype = EType.coupon ∨
        e.etype = EType.capitalisation))).head? = some
      ⟨⟨2024, 9, 30⟩,
        1000000 * (31/400) * (daysBetween ⟨2023, 10, 20⟩ ⟨2024, 3, 31⟩) / 365
          + 1000000 * (31/400) / 2,
        EType.coupon⟩ := by
  norm_num [schedule, scheduleRaw, sortByDate, insertByDate, couponLoop,
    terminalEvents, theSkip, skipInfo, couponDates, enumeratedCoupons,
    allCouponDatesSA, anchorsFrom, withMaturity, addYears, daysInMonth,
    isLeap, toRD, yS, daysBetween, stub365, periodAmount,
    List.forall_mem_cons]
  decide

/-- C1 as stated is false on the code: (a) for a reinvest bond whose
first enumerated coupon date 2024-03-31 shares the Oct 1 - Mar 31
period with the start date 2023-10-20, a Capitalisation event is still
emitted at that date (the skip rule never applies to reinvest bonds);
(b) for a semi-annual bond started 2024-02-15, in the same Oct-Mar
period as its first enumerated coupon date 2024-03-31, a Coupon event
is still emitted there (the code's same-period test does not recognise
January-March starts). -/
theorem claim_C1_counterexample :
    ((couponDates .reinvest ⟨2023, 10, 20⟩
        (addYears ⟨2023, 10, 20⟩ 3)).head? = some ⟨2024, 3, 31⟩ ∧
      (schedule .reinvest ⟨2023, 10, 20⟩ 3 1000000 (31/400)).any
        (fun e => decide (e.date = ⟨2024, 3, 31⟩ ∧
          e.etype = EType.capitalisation)) = true) ∧
    ((couponDates .semiAnnual ⟨2024, 2, 15⟩
        (addYears ⟨2024, 2, 15⟩ 2)).head? = some ⟨2024, 3, 31⟩ ∧
      (schedule .semiAnnual ⟨2024, 2, 15⟩ 2 1000 (31/400)).any
        (fun e => decide (e.date = ⟨2024, 3, 31⟩ ∧
          e.etype = EType.coupon)) = true) := by
  norm_num [schedule, scheduleRaw, sortByDate, insertByDate, couponLoop,
    terminalEvents, theSkip, skipInfo, couponDates, enumeratedCoupons,
    allCouponDatesSA, anchorsFrom, withMaturity, addYears, daysInMonth,
    isLeap, toRD, yS, daysBetween, stub365, periodAmount]
  decide

/-- C1 amended: the deferred-first-period rule as implemented applies
only to monthly and semi-annual bonds (never reinvest), and for
semi-annual bonds only when the start month is April-September with the
first enumerated coupon on Sep 30 of the same year, or October-December
with the first enumerated coupon on Mar 31 of the following year (a
January-March start sharing the March period is not recognised). Under
those conditions no Coupon or Capitalisation event is emitted at the
first enumerated coupon date, and the coupon emitted at the second
enumerated date carries the regular period amount plus the actual/365
stub interest for [start date, first coupon date). -/
theorem claim_C1_amended (pt : PayType) (startD : Date) (term : ℕ)
    (p rate : ℚ) (f d1 : Date) (rest : List Date)
    (hv : ValidDate startD) (ht : 1 ≤ term) (hp : 0 < p) (hr : 0 ≤ rate)
    (hcds : couponDates pt startD (addYears startD term) = f :: d1 :: rest)
    (hcase :
      (pt = .monthly ∧ f.y = startD.y ∧ f.m = startD.m) ∨
      (pt = .semiAnnual ∧
        ((4 ≤ startD.m ∧ startD.m ≤ 9 ∧ f = ⟨startD.y, 9, 30⟩) ∨
         (10 ≤ startD.m ∧ f = ⟨startD.y + 1, 3, 31⟩)))) :
    (∀ e ∈ schedule pt startD term p rate,
      (e.etype = EType.coupon ∨ e.etype = EType.capitalisation) →
        e.date ≠ f) ∧
    (∀ e ∈ schedule pt startD term p rate, e.date = d1 →
      (e.etype = EType.coupon ∨ e.etype = EType.capitalisation) →
        e.amount = periodAmount pt p rate (daysBetween f d1) +
          stub365 p rate (daysBetween startD f)) ∧
    (∃ e ∈ schedule pt startD term p rate,
      e.date = d1 ∧ e.etype = EType.coupon) := by
  have hpt_o : pt ≠ PayType.other := by
    rcases hcase with ⟨h, _⟩ | ⟨h, _⟩ <;> subst h <;> simp
  have hpt_r : pt ≠ PayType.reinvest := by
    rcases hcase with ⟨h, _⟩ | ⟨h, _⟩ <;> subst h <;> simp
  have hvm : ValidDate (addYears startD term) := validDate_addYears hv term
  have hsm : toRD startD < toRD (addYears startD term) :=
    toRD_lt_addYears hv ht
  obtain ⟨hpair, hmem, hlast⟩ := couponDates_spec pt hv hvm hsm
  rw [hcds] at hpair hmem
  have hskip : skipInfo pt startD (f :: d1 :: rest) p rate =
      (true, stub365 p rate (daysBetween startD f)) := by
    rcases hcase with ⟨hm, hy, hmo⟩ | ⟨hsa, hc⟩
    · subst hm; exact skipInfo_monthly_eq ⟨hy, hmo⟩
    · subst hsa
      rcases hc with ⟨h4, h9, rfl⟩ | ⟨h10, rfl⟩
      · exact skipInfo_sa_sep_eq h4 h9
      · exact skipInfo_sa_mar_eq h10
  have hts : theSkip pt startD term p rate =
      (true, stub365 p rate (daysBetween startD f)) := by
    unfold theSkip
    rw [hcds]
    exact hskip
  have hdefi_nonneg : 0 ≤ stub365 p rate (daysBetween startD f) := by
    have hfb := hmem f (List.mem_cons_self _ _)
    have hdays : (0 : ℤ) ≤ daysBetween startD f := by
      unfold daysBetween
      have := hfb.2.1
      omega
    unfold stub365
    apply div_nonneg _ (by norm_num)
    apply mul_nonneg (mul_nonneg (le_of_lt hp) hr)
    exact_mod_cast hdays
  have hloop : loopOut pt startD term p rate =
      couponLoop pt rate true (stub365 p rate (daysBetween startD f))
        (d1 :: rest) 1 f p := by
    unfold loopOut
    simp only [hts, hcds]
    exact couponLoop_skip_head pt rate _ f (d1 :: rest) startD p
  have hshape : (loopOut pt startD term p rate).1 =
      (⟨d1, periodAmount pt p rate (daysBetween f d1) +
          stub365 p rate (daysBetween startD f), EType.coupon⟩ : Event) ::
        (couponLoop pt rate true (stub365 p rate (daysBetween startD f))
          rest (1 + 1) d1 p).1 := by
    rw [hloop, couponLoop_cons pt rate _ true d1 rest 1 f p (by simp)]
    simp only [if_neg hpt_r]
    by_cases h0 : 0 < stub365 p rate (daysBetween startD f)
    · rw [if_pos ⟨trivial, trivial, h0⟩]
    · have hz : stub365 p rate (daysBetween startD f) = 0 :=
        le_antisymm (not_lt.mp h0) hdefi_nonneg
      rw [if_neg (by tauto), hz, add_zero]
  have htdates : (couponLoop pt rate true
      (stub365 p rate (daysBetween startD f)) rest (1 + 1) d1 p).1.map
        Event.date = rest :=
    couponLoop_dates pt rate _ true rest (1 + 1) d1 p (fun _ => by omega)
  have hf_lt : ∀ x ∈ d1 :: rest, toRD f < toRD x :=
    (List.pairwise_cons.mp hpair).1
  have hd1_lt : ∀ x ∈ rest, toRD d1 < toRD x :=
    (List.pairwise_cons.mp (List.Pairwise.of_cons hpair)).1
  rw [schedule_eq_raw pt hv ht p rate, scheduleRaw_decomp hpt_o]
  refine ⟨?_, ?_, ?_⟩
  · intro e he het
    rcases List.mem_cons.mp he with rfl | he
    · simp at het
    rcases List.mem_append.mp he with he | he
    · rw [hshape] at he
      rcases List.mem_cons.mp he with rfl | he
      · intro hdf
        have hdf2 : d1 = f := hdf
        have := hf_lt d1 (List.mem_cons_self _ _)
        rw [hdf2] at this
        omega
      · intro hdf
        have hdm : e.date ∈ rest := by
          rw [← htdates]
          exact List.mem_map_of_mem Event.date he
        have h1 := hf_lt e.date (List.mem_cons_of_mem _ hdm)
        rw [hdf] at h1
        omega
    · rw [terminalEvents_not_reinvest hpt_r] at he
      rcases List.mem_singleton.mp he with rfl
      simp at het
  · intro e he hed het
    rcases List.mem_cons.mp he with rfl | he
    · simp at het
    rcases List.mem_append.mp he with he | he
    · rw [hshape] at he
      rcases List.mem_cons.mp he with rfl | he
      · rfl
      · exfalso
        have hdm : e.date ∈ rest := by
          rw [← htdates]
          exact List.mem_map_of_mem Event.date he
        have h1 := hd1_lt e.date hdm
        rw [hed] at h1
        omega
    · rw [terminalEvents_not_reinvest hpt_r] at he
      rcases List.mem_singleton.mp he with rfl
      simp at het
  · refine ⟨⟨d1, periodAmount pt p rate (daysBetween f d1) +
        stub365 p rate (daysBetween startD f), EType.coupon⟩, ?_, rfl, rfl⟩
    apply List.mem_cons_of_mem
    apply List.mem_append_left
    rw [hshape]
    exact List.mem_cons_self _ _

/-- C2 as stated is false on the code: in the semi-annual scenario with
start 2023-10-20, the coupon emitted on 2024-09-30 — the first surviving
period after the skipped 2024-03-31 — has amount
principal x rate x (163/365 + 1/2), which is neither the full-period
amount principal x rate / 2 (the gap rule applied to the 183-day gap
from the skipped enumerated date) nor the actual/365 amount for the
346-day gap from the start date (which the claim prescribes for the
first surviving period, 346 lying outside [180, 185]). -/
theorem claim_C2_counterexample :
    ((⟨⟨2024, 9, 30⟩,
        1000000 * (31/400) * 163 / 365 + 1000000 * (31/400) / 2,
        EType.coupon⟩ : Event) ∈
      schedule .semiAnnual ⟨2023, 10, 20⟩ 3 1000000 (31/400)) ∧
    (∀ e ∈ schedule .semiAnnual ⟨2023, 10, 20⟩ 3 1000000 (31/400),
      e.date = ⟨2024, 9, 30⟩ →
        e.amount =
          1000000 * (31/400) * 163 / 365 + 1000000 * (31/400) / 2) ∧
    daysBetween ⟨2023, 10, 20⟩ ⟨2024, 9, 30⟩ = 346 ∧
    ¬(180 ≤ (346 : ℤ) ∧ (346 : ℤ) ≤ 185) ∧
    1000000 * (31/400) * 163 / 365 + 1000000 * (31/400) / 2 ≠
      1000000 * ((31 : ℚ)/400) / 2 ∧
    1000000 * (31/400) * 163 / 365 + 1000000 * (31/400) / 2 ≠
      1000000 * ((31 : ℚ)/400) * 346 / 365 := by
  norm_num [schedule, scheduleRaw, sortByDate, insertByDate, couponLoop,
    terminalEvents, theSkip, skipInfo, couponDates, enumeratedCoupons,
    allCouponDatesSA, anchorsFrom, withMaturity, addYears, daysInMonth,
    isLeap, toRD, yS, daysBetween, stub365, periodAmount,
    List.forall_mem_cons]
  decide

/-- The 0 or 1 coupon dates dropped by the deferred-first-period skip. -/
def skipN (pt : PayType) (startD : Date) (term : ℕ) (p rate : ℚ) : ℕ :=
  if (theSkip pt startD term p rate).1 = true then 1 else 0

/-- C2 amended: the schedule is the investment, the coupon-loop events
and the terminal events; the loop emits one event per coupon date not
dropped by the skip rule, and each event's amount is the full-period /
actual-365 rule applied to the day gap measured from the previous
enumerated coupon date (the start date for the first one, the skipped
first coupon date after a skip) on the running principal (compounded for
reinvest bonds), plus, for the first surviving payment after a skip, the
deferred actual/365 stub interest for [start date, skipped date). -/
theorem claim_C2_amended (pt : PayType) (startD : Date) (term : ℕ)
    (p rate : ℚ) (hv : ValidDate startD) (ht : 1 ≤ term) (hp : 0 < p)
    (hr : 0 ≤ rate) (hpt : pt ≠ .other) :
    schedule pt startD term p rate =
      ⟨startD, -p, .investment⟩ ::
        ((loopOut pt startD term p rate).1 ++
          terminalEvents pt (addYears startD term) p
            (loopOut pt startD term p rate).2) ∧
    (loopOut pt startD term p rate).1.length + skipN pt startD term p rate
      = (couponDates pt startD (addYears startD term)).length ∧
    ∀ k, k < (loopOut pt startD term p rate).1.length →
      ((loopOut pt startD term p rate).1.getD k dfltE).date =
        (couponDates pt startD (addYears startD term)).getD
          (k + skipN pt startD term p rate) dfltD ∧
      ((loopOut pt startD term p rate).1.getD k dfltE).amount =
        periodAmount pt
          (if pt = .reinvest then
            p + (((loopOut pt startD term p rate).1.take k).map
              Event.amount).sum
          else p) rate
          (daysBetween
            ((startD :: couponDates pt startD (addYears startD term)).getD
              (k + skipN pt startD term p rate) dfltD)
            ((couponDates pt startD (addYears startD term)).getD
              (k + skipN pt startD term p rate) dfltD)) +
        (if k = 0 ∧ skipN pt startD term p rate = 1 then
          stub365 p rate (daysBetween startD
            ((couponDates pt startD (addYears startD term)).getD 0 dfltD))
        else 0) := by
  have hvm : ValidDate (addYears startD term) := validDate_addYears hv term
  have hsm : toRD startD < toRD (addYears startD term) :=
    toRD_lt_addYears hv ht
  obtain ⟨hpair, hmem, hlast⟩ := couponDates_spec pt hv hvm hsm
  refine ⟨by rw [schedule_eq_raw pt hv ht p rate,
    scheduleRaw_decomp hpt], ?_⟩
  have hcons_getD : ∀ (a : Date) (l : List Date) (k : ℕ),
      (a :: l).getD k dfltD =
        (if k = 0 then a else l.getD (k - 1) dfltD) := by
    intro a l k
    cases k with
    | zero => simp
    | succ k2 => simp
  by_cases hsk : (theSkip pt startD term p rate).1 = true
  · -- skip case
    have hsN : skipN pt startD term p rate = 1 := by
      unfold skipN
      rw [if_pos hsk]
    obtain ⟨f, rest, hcds, _, hstub⟩ := skip_eq_true_cases hsk
    have hf_gt : toRD startD < toRD f := by
      have := (hmem f (by rw [hcds]; exact List.mem_cons_self _ _)).2.1
      exact this
    have hdefi_nonneg : 0 ≤ stub365 p rate (daysBetween startD f) := by
      unfold stub365
      apply div_nonneg _ (by norm_num)
      apply mul_nonneg (mul_nonneg (le_of_lt hp) hr)
      have : (0 : ℤ) ≤ daysBetween startD f := by
        unfold daysBetween
        omega
      exact_mod_cast this
    have hloop : loopOut pt startD term p rate =
        couponLoop pt rate true (stub365 p rate (daysBetween startD f))
          rest 1 f p := by
      unfold loopOut theSkip
      unfold theSkip at hsk
      rw [hcds] at hstub hsk ⊢
      rw [hsk, hstub, couponLoop_skip_head]
    have hdts : (couponLoop pt rate true
        (stub365 p rate (daysBetween startD f)) rest 1 f p).1.map
          Event.date = rest :=
      couponLoop_dates pt rate _ true rest 1 f p (fun _ => le_refl 1)
    have hlen : (couponLoop pt rate true
        (stub365 p rate (daysBetween startD f)) rest 1 f p).1.length =
        rest.length := by
      have := congrArg List.length hdts
      simpa using this
    refine ⟨by rw [hloop, hlen, hcds, hsN]; simp, ?_⟩
    intro k hk
    rw [hloop] at hk ⊢
    rw [hlen] at hk
    have hamts := couponLoop_amount pt rate
      (stub365 p rate (daysBetween startD f)) true rest 1 f p
      (fun _ => le_refl 1) k hk
    constructor
    · rw [map_date_getD hdts (by rw [hlen]; exact hk), hcds, hsN,
        List.getD_cons_succ]
    · rw [hamts, hcds, hsN]
      have e1 : (f :: rest).getD (k + 1) dfltD = rest.getD k dfltD := by
        simp
      have e2 : (startD :: f :: rest).getD (k + 1) dfltD =
          (f :: rest).getD k dfltD := by
        simp
      rw [e1, e2, hcons_getD f rest k]
      have e3 : (f :: rest).getD 0 dfltD = f := rfl
      rw [e3]
      by_cases hk0 : k = 0
      · subst hk0
        rw [if_pos (⟨rfl, rfl⟩ : (0 : ℕ) = 0 ∧ (1 : ℕ) = 1)]
        by_cases h0 : 0 < stub365 p rate (daysBetween startD f)
        · have hcnd : 1 + 0 = 1 ∧ true = true ∧
              0 < stub365 p rate (daysBetween startD f) := ⟨rfl, rfl, h0⟩
          rw [if_pos hcnd]
        · have hcnd : ¬(1 + 0 = 1 ∧ true = true ∧
              0 < stub365 p rate (daysBetween startD f)) := by
            rintro ⟨-, -, hc⟩
            exact h0 hc
          have hz : stub365 p rate (daysBetween startD f) = 0 :=
            le_antisymm (not_lt.mp h0) hdefi_nonneg
          rw [if_neg hcnd, hz]
      · have b1 : ¬(1 + k = 1 ∧ true = true ∧
            0 < stub365 p rate (daysBetween startD f)) := by
          rintro ⟨h1, -, -⟩
          omega
        have b2 : ¬(k = 0 ∧ (1 : ℕ) = 1) := by
          rintro ⟨h1, -⟩
          exact hk0 h1
        rw [if_neg b1, if_neg b2]
  · -- no-skip case
    have hskf : (theSkip pt startD term p rate).1 = false := by
      cases hb : (theSkip pt startD term p rate).1
      · rfl
      · exact absurd hb hsk
    have hsN : skipN pt startD term p rate = 0 := by
      unfold skipN
      rw [if_neg hsk]
    have hloop : loopOut pt startD term p rate =
        couponLoop pt rate false (theSkip pt startD term p rate).2
          (couponDates pt startD (addYears startD term)) 0 startD p := by
      unfold loopOut
      rw [hskf]
    have hdts : (couponLoop pt rate false
        (theSkip pt startD term p rate).2
        (couponDates pt startD (addYears startD term)) 0 startD p).1.map
          Event.date = couponDates pt startD (addYears startD term) :=
      couponLoop_dates pt rate _ false _ 0 startD p (fun h => by simp at h)
    have hlen : (couponLoop pt rate false
        (theSkip pt startD term p rate).2
        (couponDates pt startD (addYears startD term)) 0 startD
          p).1.length =
        (couponDates pt startD (addYears startD term)).length := by
      have := congrArg List.length hdts
      simpa using this
    refine ⟨by rw [hloop, hlen, hsN, Nat.add_zero], ?_⟩
    intro k hk
    rw [hloop] at hk ⊢
    rw [hlen] at hk
    have hamts := couponLoop_amount pt rate
      (theSkip pt startD term p rate).2 false
      (couponDates pt startD (addYears startD term)) 0 startD p
      (fun h => by simp at h) k hk
    constructor
    · rw [map_date_getD hdts (by rw [hlen]; exact hk), hsN, Nat.add_zero]
    · have b1 : ¬(0 + k = 1 ∧ false = true ∧
          0 < (theSkip pt startD term p rate).2) := by
        rintro ⟨-, h2, -⟩
        simp at h2
      have b2 : ¬(k = 0 ∧ (0 : ℕ) = 1) := by
        rintro ⟨-, h2⟩
        omega
      rw [hamts, hsN, Nat.add_zero, hcons_getD startD _ k,
        if_neg b1, if_neg b2]

theorem claim_C1_amended_witness :
    (couponDates .semiAnnual ⟨2023, 10, 20⟩ (addYears ⟨2023, 10, 20⟩ 3) =
      ⟨2024, 3, 31⟩ :: ⟨2024, 9, 30⟩ ::
        [⟨2025, 3, 31⟩, ⟨2025, 9, 30⟩, ⟨2026, 3, 31⟩, ⟨2026, 9, 30⟩,
         ⟨2026, 10, 20⟩]) ∧
    ((∀ e ∈ schedule .semiAnnual ⟨2023, 10, 20⟩ 3 1000000 (31/400),
      (e.etype = EType.coupon ∨ e.etype = EType.capitalisation) →
        e.date ≠ ⟨2024, 3, 31⟩) ∧
    (∀ e ∈ schedule .semiAnnual ⟨2023, 10, 20⟩ 3 1000000 (31/400),
      e.date = ⟨2024, 9, 30⟩ →
      (e.etype = EType.coupon ∨ e.etype = EType.capitalisation) →
        e.amount = periodAmount .semiAnnual 1000000 (31/400)
            (daysBetween ⟨2024, 3, 31⟩ ⟨2024, 9, 30⟩) +
          stub365 1000000 (31/400)
            (daysBetween ⟨2023, 10, 20⟩ ⟨2024, 3, 31⟩)) ∧
    (∃ e ∈ schedule .semiAnnual ⟨2023, 10, 20⟩ 3 1000000 (31/400),
      e.date = ⟨2024, 9, 30⟩ ∧ e.etype = EType.coupon)) :=
  ⟨by decide,
   claim_C1_amended .semiAnnual ⟨2023, 10, 20⟩ 3 1000000 (31/400)
     ⟨2024, 3, 31⟩ ⟨2024, 9, 30⟩
     [⟨2025, 3, 31⟩, ⟨2025, 9, 30⟩, ⟨2026, 3, 31⟩, ⟨2026, 9, 30⟩,
      ⟨2026, 10, 20⟩]
     (by decide) (by norm_num) (by norm_num) (by norm_num) (by decide)
     (by decide)⟩

theorem claim_C2_amended_witness :
    ValidDate ⟨2023, 10, 20⟩ ∧ 1 ≤ 3 ∧ (0 : ℚ) < 1000000 ∧
      (0 : ℚ) ≤ 31/400 ∧
    (schedule .semiAnnual ⟨2023, 10, 20⟩ 3 1000000 (31/400) =
      ⟨⟨2023, 10, 20⟩, -1000000, .investment⟩ ::
        ((loopOut .semiAnnual ⟨2023, 10, 20⟩ 3 1000000 (31/400)).1 ++
          terminalEvents .semiAnnual (addYears ⟨2023, 10, 20⟩ 3) 1000000
            (loopOut .semiAnnual ⟨2023, 10, 20⟩ 3 1000000 (31/400)).2) ∧
    (loopOut .semiAnnual ⟨2023, 10, 20⟩ 3 1000000 (31/400)).1.length +
      skipN .semiAnnual ⟨2023, 10, 20⟩ 3 1000000 (31/400)
      = (couponDates .semiAnnual ⟨2023, 10, 20⟩
          (addYears ⟨2023, 10, 20⟩ 3)).length ∧
    ∀ k, k < (loopOut .semiAnnual ⟨2023, 10, 20⟩ 3 1000000
        (31/400)).1.length →
      ((loopOut .semiAnnual ⟨2023, 10, 20⟩ 3 1000000 (31/400)).1.getD k
          dfltE).date =
        (couponDates .semiAnnual ⟨2023, 10, 20⟩
          (addYears ⟨2023, 10, 20⟩ 3)).getD
          (k + skipN .semiAnnual ⟨2023, 10, 20⟩ 3 1000000 (31/400))
          dfltD ∧
      ((loopOut .semiAnnual ⟨2023, 10, 20⟩ 3 1000000 (31/400)).1.getD k
          dfltE).amount =
        periodAmount .semiAnnual
          (if PayType.semiAnnual = PayType.reinvest then
            1000000 + (((loopOut .semiAnnual ⟨2023, 10, 20⟩ 3 1000000
              (31/400)).1.take k).map Event.amount).sum
          else 1000000) (31/400)
          (daysBetween
            ((⟨2023, 10, 20⟩ :: couponDates .semiAnnual ⟨2023, 10, 20⟩
              (addYears ⟨2023, 10, 20⟩ 3)).getD
              (k + skipN .semiAnnual ⟨2023, 10, 20⟩ 3 1000000 (31/400))
              dfltD)
            ((couponDates .semiAnnual ⟨2023, 10, 20⟩
              (addYears ⟨2023, 10, 20⟩ 3)).getD
              (k + skipN .semiAnnual ⟨2023, 10, 20⟩ 3 1000000 (31/400))
              dfltD)) +
        (if k = 0 ∧ skipN .semiAnnual ⟨2023, 10, 20⟩ 3 1000000 (31/400)
            = 1 then
          stub365 1000000 (31/400) (daysBetween ⟨2023, 10, 20⟩
            ((couponDates .semiAnnual ⟨2023, 10, 20⟩
              (addYears ⟨2023, 10, 20⟩ 3)).getD 0 dfltD))
        else 0)) :=
  ⟨by decide, by norm_num, by norm_num, by norm_num,
   claim_C2_amended .semiAnnual ⟨2023, 10, 20⟩ 3 1000000 (31/400)
     (by decide) (by norm_num) (by norm_num) (by norm_num) (by decide)⟩

/-- The error message raised by `get_rsa_rsb_rate` for an unsupported
term (source line 29). -/
def invalidTermMsg : String := "Invalid term. Term must be 2, 3, or 5 years."

/-- The term validation performed by `get_rsa_rsb_rate` (source lines
22-29) before any file access or schedule computation. -/
def rateTermCheck (term : ℕ) : Except String Unit :=
  if term = 2 ∨ term = 3 ∨ term = 5 then .ok () else .error invalidTermMsg

/-- The fixed-rate path of the dispatcher `calculate_bond_metrics`
(source lines 286-296): the rate lookup's term validation runs first and
aborts the calculation with its error; otherwise the engine produces the
schedule and the daily series. The rate value itself comes from the
external rates file and is a parameter here (spec section 4.3). -/
def calculateBondMetricsChecked (pt : PayType) (startD : Date) (term : ℕ)
    (p rate : ℚ) : Except String (List Event × List DailyRecord) :=
  match rateTermCheck term with
  | .error e => .error e
  | .ok _ =>
    .ok (schedule pt startD term p rate, dailyMetrics pt startD term p rate)

/-- C7 amended, term half: a term outside {2, 3, 5} is rejected with the
invalid-term error before any schedule or daily series is computed. -/
theorem claim_C7_amended (pt : PayType) (startD : Date) (term : ℕ)
    (p rate : ℚ) (h : ¬(term = 2 ∨ term = 3 ∨ term = 5)) :
    calculateBondMetricsChecked pt startD term p rate =
      .error invalidTermMsg := by
  unfold calculateBondMetricsChecked rateTermCheck
  rw [if_neg h]

theorem claim_C7_amended_witness :
    ¬((4 : ℕ) = 2 ∨ (4 : ℕ) = 3 ∨ (4 : ℕ) = 5) ∧
    calculateBondMetricsChecked .semiAnnual ⟨2023, 10, 20⟩ 4 1000
      (31/400) = .error invalidTermMsg :=
  ⟨by decide, claim_C7_amended .semiAnnual ⟨2023, 10, 20⟩ 4 1000 (31/400)
    (by decide)⟩

/-- C7 as stated is false on the code: an unrecognised payment type is
not rejected — the calculation succeeds and produces a schedule holding
only the investment and the repayment, with no error raised. -/
theorem claim_C7_counterexample :
    calculateBondMetricsChecked .other ⟨2023, 10, 20⟩ 3 100 (31/400) =
      .ok (schedule .other ⟨2023, 10, 20⟩ 3 100 (31/400),
        dailyMetrics .other ⟨2023, 10, 20⟩ 3 100 (31/400)) ∧
    schedule .other ⟨2023, 10, 20⟩ 3 100 (31/400) =
      [⟨⟨2023, 10, 20⟩, -100, .investment⟩,
       ⟨⟨2026, 10, 20⟩, 100, .repayment⟩] := by
  constructor
  · rfl
  · norm_num [schedule, scheduleRaw, sortByDate, insertByDate,
      terminalEvents, addYears, daysInMonth, isLeap, toRD, yS]

/-- C8 amended: the daily valuation builder has no emptiness guard — for
any event list (including an empty schedule) and any principal
(including non-positive ones) it returns exactly one record per calendar
day from the start date to the maturity date. -/
theorem claim_C8_amended (pt : PayType) (startD matD : Date) (p rate : ℚ)
    (evts : List Event) (h : toRD startD ≤ toRD matD) :
    (buildDaily pt startD matD p rate evts).length =
      (toRD matD - toRD startD) + 1 ∧
    buildDaily pt startD matD p rate evts ≠ [] := by
  unfold buildDaily
  rw [if_neg (by omega)]
  refine ⟨by rw [List.length_map, List.length_range], ?_⟩
  apply List.ne_nil_of_length_pos
  rw [List.length_map, List.length_range]
  omega

theorem claim_C8_amended_witness :
    toRD ⟨2023, 10, 20⟩ ≤ toRD (addYears ⟨2023, 10, 20⟩ 2) ∧
    ((buildDaily .semiAnnual ⟨2023, 10, 20⟩ (addYears ⟨2023, 10, 20⟩ 2)
        0 (31/400) []).length =
      (toRD (addYears ⟨2023, 10, 20⟩ 2) - toRD ⟨2023, 10, 20⟩) + 1 ∧
    buildDaily .semiAnnual ⟨2023, 10, 20⟩ (addYears ⟨2023, 10, 20⟩ 2)
      0 (31/400) [] ≠ []) :=
  ⟨by decide, claim_C8_amended .semiAnnual ⟨2023, 10, 20⟩
    (addYears ⟨2023, 10, 20⟩ 2) 0 (31/400) [] (by decide)⟩

set_option maxRecDepth 40000 in
/-- C8 as stated is false on the code: with an empty schedule and zero
principal, and with a negative principal through the full pipeline, the
builder still returns one record per day rather than an empty series. -/
theorem claim_C8_counterexample :
    (buildDaily .semiAnnual ⟨2023, 10, 20⟩ (addYears ⟨2023, 10, 20⟩ 2) 0
      (31/400) []).length = 732 ∧
    dailyMetrics .semiAnnual ⟨2023, 10, 20⟩ 2 (-100) (31/400) ≠ [] ∧
    (732 : ℕ) ≠ 0 := by
  refine ⟨by decide, ?_, by decide⟩
  unfold dailyMetrics buildDaily
  rw [if_neg (by decide)]
  apply List.ne_nil_of_length_pos
  rw [List.length_map, List.length_range]
  decide

/-- C9 as stated is false on the code: for a reinvest bond the terminal
recharacterised Coupon event (the accumulated capitalised interest) is
appended after the principal repayment, so on the maturity date the
repayment is not the last event. -/
theorem claim_C9_counterexample :
    ((schedule .reinvest ⟨2023, 10, 20⟩ 2 1000000 (31/400)).getLast?.map
      Event.etype) = some EType.coupon ∧
    ((schedule .reinvest ⟨2023, 10, 20⟩ 2 1000000 (31/400)).getLast?.map
      Event.date) = some (addYears ⟨2023, 10, 20⟩ 2) ∧
    ((schedule .reinvest ⟨2023, 10, 20⟩ 2 1000000
        (31/400)).dropLast.any
      (fun e => decide (e.etype = EType.repayment ∧
        e.date = addYears ⟨2023, 10, 20⟩ 2))) = true := by
  norm_num [schedule, scheduleRaw, sortByDate, insertByDate, couponLoop,
    terminalEvents, theSkip, skipInfo, couponDates, enumeratedCoupons,
    allCouponDatesSA, anchorsFrom, withMaturity, addYears, daysInMonth,
    isLeap, toRD, yS, daysBetween, stub365, periodAmount]

/-- C9 amended: events are sorted by date ascending and the investment
is the first event; the principal repayment is the last event except for
reinvest bonds with positive accumulated capitalised interest, where the
terminal recharacterised Coupon event follows the repayment as the last
event on the maturity date. -/
theorem claim_C9_amended (pt : PayType) (startD : Date) (term : ℕ)
    (p rate : ℚ) (hv : ValidDate startD) (ht : 1 ≤ term) :
    (schedule pt startD term p rate).Pairwise
      (fun a b => toRD a.date ≤ toRD b.date) ∧
    (schedule pt startD term p rate).head? =
      some ⟨startD, -p, .investment⟩ ∧
    (pt ≠ .reinvest ∨
        ¬(0 < (loopOut pt startD term p rate).2 - p) →
      (schedule pt startD term p rate).getLast? =
        some ⟨addYears startD term, p, .repayment⟩) ∧
    (pt = .reinvest → 0 < (loopOut pt startD term p rate).2 - p →
      (schedule pt startD term p rate).getLast? =
        some ⟨addYears startD term,
          (loopOut pt startD term p rate).2 - p, .coupon⟩ ∧
      (schedule pt startD term p rate).dropLast.getLast? =
        some ⟨addYears startD term, p, .repayment⟩) := by
  have hsorted := scheduleRaw_sorted pt hv ht p rate
  have heq := schedule_eq_raw pt hv ht p rate
  refine ⟨heq ▸ hsorted, ?_, ?_, ?_⟩
  · rw [heq]
    by_cases hpt : pt = PayType.other
    · subst hpt
      rw [scheduleRaw_other]
      rfl
    · rw [scheduleRaw_decomp hpt]
      rfl
  · intro hcase
    rw [heq]
    by_cases hpt : pt = PayType.other
    · subst hpt
      rw [scheduleRaw_other]
      rfl
    · rw [scheduleRaw_decomp hpt]
      have hterm : terminalEvents pt (addYears startD term) p
          (loopOut pt startD term p rate).2 =
          [⟨addYears startD term, p, .repayment⟩] := by
        rcases hcase with hne | hnp
        · exact terminalEvents_not_reinvest hne (addYears startD term) p _
        · by_cases hre : pt = PayType.reinvest
          · subst hre
            exact terminalEvents_reinvest_nonpos hnp
          · exact terminalEvents_not_reinvest hre (addYears startD term)
              p _
      rw [hterm]
      have hassoc : (⟨startD, -p, EType.investment⟩ : Event) ::
          ((loopOut pt startD term p rate).1 ++
            [⟨addYears startD term, p, .repayment⟩]) =
          ((⟨startD, -p, EType.investment⟩ : Event) ::
            (loopOut pt startD term p rate).1) ++
            [⟨addYears startD term, p, .repayment⟩] := by
        simp
      rw [hassoc, List.getLast?_concat]
  · intro hre hpos
    subst hre
    rw [heq, scheduleRaw_decomp (by simp)]
    rw [terminalEvents_reinvest_pos hpos]
    have hsplit : (⟨startD, -p, EType.investment⟩ : Event) ::
        ((loopOut .reinvest startD term p rate).1 ++
          [⟨addYears startD term, p, .repayment⟩,
           ⟨addYears startD term,
             (loopOut .reinvest startD term p rate).2 - p, .coupon⟩]) =
        (((⟨startD, -p, EType.investment⟩ : Event) ::
          (loopOut .reinvest startD term p rate).1) ++
          [⟨addYears startD term, p, .repayment⟩]) ++
          [⟨addYears startD term,
            (loopOut .reinvest startD term p rate).2 - p, .coupon⟩] := by
      simp
    rw [hsplit, List.getLast?_concat, List.dropLast_concat,
      List.getLast?_concat]
    exact ⟨rfl, rfl⟩

theorem claim_C9_amended_witness :
    ValidDate ⟨2023, 10, 20⟩ ∧ 1 ≤ 2 ∧
    ((schedule .reinvest ⟨2023, 10, 20⟩ 2 1000000 (31/400)).Pairwise
      (fun a b => toRD a.date ≤ toRD b.date) ∧
    (schedule .reinvest ⟨2023, 10, 20⟩ 2 1000000 (31/400)).head? =
      some ⟨⟨2023, 10, 20⟩, -1000000, .investment⟩ ∧
    (PayType.reinvest ≠ .reinvest ∨
        ¬(0 < (loopOut .reinvest ⟨2023, 10, 20⟩ 2 1000000 (31/400)).2 -
          1000000) →
      (schedule .reinvest ⟨2023, 10, 20⟩ 2 1000000 (31/400)).getLast? =
        some ⟨addYears ⟨2023, 10, 20⟩ 2, 1000000, .repayment⟩) ∧
    (PayType.reinvest = .reinvest →
      0 < (loopOut .reinvest ⟨2023, 10, 20⟩ 2 1000000 (31/400)).2 -
        1000000 →
      (schedule .reinvest ⟨2023, 10, 20⟩ 2 1000000 (31/400)).getLast? =
        some ⟨addYears ⟨2023, 10, 20⟩ 2,
          (loopOut .reinvest ⟨2023, 10, 20⟩ 2 1000000 (31/400)).2 -
            1000000, .coupon⟩ ∧
      (schedule .reinvest ⟨2023, 10, 20⟩ 2 1000000
          (31/400)).dropLast.getLast? =
        some ⟨addYears ⟨2023, 10, 20⟩ 2, 1000000, .repayment⟩)) :=
  ⟨by decide, by decide,
   claim_C9_amended .reinvest ⟨2023, 10, 20⟩ 2 1000000 (31/400)
     (by decide) (by decide)⟩

/-- `getD` on a mapped range evaluates the function. -/
theorem getD_map_range {α : Type} {f : ℕ → α} {n k : ℕ} {d : α}
    (h : k < n) : ((List.range n).map f).getD k d = f k := by
  rw [List.getD_eq_getElem _ _ (by simpa using h)]
  simp

/-- Every branch of the daily record keeps the row's date. -/
theorem recAt_dateRD (pt : PayType) (startRD matRD : ℕ) (p rate : ℚ)
    (evts : List Event) (n : ℕ) :
    (recAt pt startRD matRD p rate evts n).dateRD = startRD + n := by
  unfold recAt
  dsimp only
  split <;> rfl

/-- The maturity-day adjustment zeroes the balance columns. -/
theorem recAt_maturity {pt : PayType} {startRD matRD : ℕ} {p rate : ℚ}
    {evts : List Event} {n : ℕ} (h : startRD + n = matRD) :
    (recAt pt startRD matRD p rate evts n).pb = 0 ∧
    (recAt pt startRD matRD p rate evts n).ai = 0 ∧
    (recAt pt startRD matRD p rate evts n).bv = 0 := by
  unfold recAt
  dsimp only
  rw [if_pos h]
  exact ⟨rfl, rfl, rfl⟩

/-- Away from maturity, book value is balance plus accrual. -/
theorem recAt_bv {pt : PayType} {startRD matRD : ℕ} {p rate : ℚ}
    {evts : List Event} {n : ℕ} (h : startRD + n ≠ matRD) :
    (recAt pt startRD matRD p rate evts n).bv =
      (recAt pt startRD matRD p rate evts n).pb +
      (recAt pt startRD matRD p rate evts n).ai := by
  unfold recAt
  dsimp only
  rw [if_neg h]

/-- The daily series as a map over day offsets, for a recognised
start/maturity pair. -/
theorem dailyMetrics_eq_map (pt : PayType) {startD : Date} {term : ℕ}
    (p rate : ℚ) (hv : ValidDate startD) (ht : 1 ≤ term) :
    dailyMetrics pt startD term p rate =
      (List.range (toRD (addYears startD term) - toRD startD + 1)).map
        (recAt pt (toRD startD) (toRD (addYears startD term)) p rate
          (schedule pt startD term p rate)) := by
  have hlt := toRD_lt_addYears hv ht
  unfold dailyMetrics buildDaily
  rw [if_neg (by omega)]

/-- C4: the daily series has one record per calendar day from start to
maturity inclusive (length N+1, the k-th record dated start + k); the
last record is dated at maturity and its principal balance, accrued
interest and book value are all zero; every earlier record satisfies
book value = principal balance + accrued interest. -/
theorem claim_C4 (pt : PayType) (startD : Date) (term : ℕ) (p rate : ℚ)
    (hv : ValidDate startD) (ht : 1 ≤ term) :
    (dailyMetrics pt startD term p rate).length =
      toRD (addYears startD term) - toRD startD + 1 ∧
    (∀ k, k ≤ toRD (addYears startD term) - toRD startD →
      ((dailyMetrics pt startD term p rate).getD k dfltR).dateRD =
        toRD startD + k) ∧
    (((dailyMetrics pt startD term p rate).getD
        (toRD (addYears startD term) - toRD startD) dfltR).dateRD =
      toRD (addYears startD term) ∧
    ((dailyMetrics pt startD term p rate).getD
        (toRD (addYears startD term) - toRD startD) dfltR).pb = 0 ∧
    ((dailyMetrics pt startD term p rate).getD
        (toRD (addYears startD term) - toRD startD) dfltR).ai = 0 ∧
    ((dailyMetrics pt startD term p rate).getD
        (toRD (addYears startD term) - toRD startD) dfltR).bv = 0) ∧
    (∀ k, k < toRD (addYears startD term) - toRD startD →
      ((dailyMetrics pt startD term p rate).getD k dfltR).bv =
        ((dailyMetrics pt startD term p rate).getD k dfltR).pb +
        ((dailyMetrics pt startD term p rate).getD k dfltR).ai) := by
  have hlt := toRD_lt_addYears hv ht
  have hmap := dailyMetrics_eq_map pt p rate hv ht
  rw [hmap]
  refine ⟨by simp, ?_, ?_, ?_⟩
  · intro k hk
    rw [getD_map_range (by omega)]
    exact recAt_dateRD pt _ _ p rate _ k
  · rw [getD_map_range (by omega)]
    have hmk : toRD startD +
        (toRD (addYears startD term) - toRD startD) =
        toRD (addYears startD term) := by omega
    obtain ⟨h1, h2, h3⟩ := @recAt_maturity pt (toRD startD)
      (toRD (addYears startD term)) p rate
      (schedule pt startD term p rate) _ hmk
    exact ⟨by rw [recAt_dateRD]; omega, h1, h2, h3⟩
  · intro k hk
    rw [getD_map_range (by omega)]
    exact recAt_bv (by omega)

theorem claim_C4_witness :
    ValidDate ⟨2023, 10, 20⟩ ∧ 1 ≤ 2 ∧
    ((dailyMetrics .semiAnnual ⟨2023, 10, 20⟩ 2 1000000 (31/400)).length =
      toRD (addYears ⟨2023, 10, 20⟩ 2) - toRD ⟨2023, 10, 20⟩ + 1 ∧
    (∀ k, k ≤ toRD (addYears ⟨2023, 10, 20⟩ 2) - toRD ⟨2023, 10, 20⟩ →
      ((dailyMetrics .semiAnnual ⟨2023, 10, 20⟩ 2 1000000
          (31/400)).getD k dfltR).dateRD = toRD ⟨2023, 10, 20⟩ + k) ∧
    (((dailyMetrics .semiAnnual ⟨2023, 10, 20⟩ 2 1000000 (31/400)).getD
        (toRD (addYears ⟨2023, 10, 20⟩ 2) - toRD ⟨2023, 10, 20⟩)
        dfltR).dateRD = toRD (addYears ⟨2023, 10, 20⟩ 2) ∧
    ((dailyMetrics .semiAnnual ⟨2023, 10, 20⟩ 2 1000000 (31/400)).getD
        (toRD (addYears ⟨2023, 10, 20⟩ 2) - toRD ⟨2023, 10, 20⟩)
        dfltR).pb = 0 ∧
    ((dailyMetrics .semiAnnual ⟨2023, 10, 20⟩ 2 1000000 (31/400)).getD
        (toRD (addYears ⟨2023, 10, 20⟩ 2) - toRD ⟨2023, 10, 20⟩)
        dfltR).ai = 0 ∧
    ((dailyMetrics .semiAnnual ⟨2023, 10, 20⟩ 2 1000000 (31/400)).getD
        (toRD (addYears ⟨2023, 10, 20⟩ 2) - toRD ⟨2023, 10, 20⟩)
        dfltR).bv = 0) ∧
    (∀ k, k < toRD (addYears ⟨2023, 10, 20⟩ 2) - toRD ⟨2023, 10, 20⟩ →
      ((dailyMetrics .semiAnnual ⟨2023, 10, 20⟩ 2 1000000
          (31/400)).getD k dfltR).bv =
        ((dailyMetrics .semiAnnual ⟨2023, 10, 20⟩ 2 1000000
          (31/400)).getD k dfltR).pb +
        ((dailyMetrics .semiAnnual ⟨2023, 10, 20⟩ 2 1000000
          (31/400)).getD k dfltR).ai)) :=
  ⟨by decide, by decide,
   claim_C4 .semiAnnual ⟨2023, 10, 20⟩ 2 1000000 (31/400)
     (by decide) (by decide)⟩

theorem foldr_max_le {l : List ℕ} {b c : ℕ} (hb : c ≤ b)
    (h : ∀ x ∈ l, x ≤ b) : l.foldr max c ≤ b := by
  induction l with
  | nil => exact hb
  | cons a t ih =>
    simp only [List.foldr_cons]
    exact max_le (h a (List.mem_cons_self a t))
      (ih (fun x hx => h x (List.mem_cons_of_mem a hx)))

theorem le_foldr_max_base (l : List ℕ) (c : ℕ) : c ≤ l.foldr max c := by
  induction l with
  | nil => exact le_refl c
  | cons a t ih => exact le_trans ih (le_max_right a _)

theorem le_foldr_max_of_mem {l : List ℕ} {c x : ℕ} (h : x ∈ l) :
    x ≤ l.foldr max c := by
  induction l with
  | nil => simp at h
  | cons a t ih =>
    rcases List.mem_cons.mp h with rfl | h2
    · exact le_max_left x _
    · exact le_trans (ih h2) (le_max_right a _)

/-- The spec's description of the accrual anchor: the most recent
Coupon/Capitalisation event day at or before the current day,
initialised to the start date. Stated declaratively (a running maximum)
to be compared with the source's loop state `lastCouponRD`. -/
def mostRecentEventRD (startRD : ℕ) (S : List ℕ) (n : ℕ) : ℕ :=
  (S.filter (fun s => decide (s ≤ startRD + n))).foldr max startRD

/-- The accrual loop's `last_coupon_date` state equals the declarative
most-recent-event day, provided every event day is after the start. -/
theorem lastCouponRD_eq_mostRecent {startRD : ℕ} {S : List ℕ}
    (hS : ∀ s ∈ S, startRD < s) (n : ℕ) :
    lastCouponRD startRD S n = mostRecentEventRD startRD S n := by
  induction n with
  | zero =>
    have hfe : S.filter (fun s => decide (s ≤ startRD + 0)) = [] := by
      rw [List.filter_eq_nil]
      intro s hs
      have := hS s hs
      simp only [decide_eq_true_eq]
      omega
    simp only [lastCouponRD, mostRecentEventRD, hfe, List.foldr_nil]
  | succ n ih =>
    cases hc : S.contains (startRD + (n + 1)) with
    | true =>
      have hmem : startRD + (n + 1) ∈ S := by simpa using hc
      simp only [lastCouponRD, hc, if_pos]
      apply le_antisymm
      · exact le_foldr_max_of_mem (List.mem_filter.mpr ⟨hmem, by simp⟩)
      · apply foldr_max_le (Nat.le_add_right _ _)
        intro x hx
        have := (List.mem_filter.mp hx).2
        simpa using this
    | false =>
      have hnm : startRD + (n + 1) ∉ S := by simpa using hc
      simp only [lastCouponRD, hc, Bool.false_eq_true, if_false]
      rw [ih]
      unfold mostRecentEventRD
      congr 1
      apply List.filter_congr
      intro s hs
      have h1 : s ≠ startRD + (n + 1) := fun he => hnm (he ▸ hs)
      simp only [decide_eq_decide]
      omega

/-- On an event day the declarative anchor is the day itself. -/
theorem mostRecent_eq_self {startRD : ℕ} {S : List ℕ} {n : ℕ}
    (hmem : startRD + n ∈ S) :
    mostRecentEventRD startRD S n = startRD + n := by
  apply le_antisymm
  · apply foldr_max_le (Nat.le_add_right _ _)
    intro x hx
    simpa using (List.mem_filter.mp hx).2
  · exact le_foldr_max_of_mem (List.mem_filter.mpr ⟨hmem, by simp⟩)

/-- Every Coupon/Capitalisation event day of a schedule lies strictly
after the start and at or before maturity. -/
theorem couponRDs_schedule_bounds (pt : PayType) {startD : Date}
    {term : ℕ} (hv : ValidDate startD) (ht : 1 ≤ term) (p rate : ℚ) :
    ∀ s ∈ couponRDs (schedule pt startD term p rate),
      toRD startD < s ∧ s ≤ toRD (addYears startD term) := by
  intro s hs
  obtain ⟨e, he, rfl⟩ := List.mem_map.mp hs
  obtain ⟨hemem, hdec⟩ := List.mem_filter.mp he
  have het : e.etype = .coupon ∨ e.etype = .capitalisation := by
    simpa using hdec
  rw [schedule_eq_raw pt hv ht p rate] at hemem
  by_cases hpt : pt = PayType.other
  · subst hpt
    rw [scheduleRaw_other] at hemem
    simp only [List.mem_cons, List.not_mem_nil, or_false] at hemem
    rcases hemem with rfl | rfl <;> simp at het
  · rw [scheduleRaw_decomp hpt] at hemem
    rcases List.mem_cons.mp hemem with rfl | hm
    · simp at het
    · rcases List.mem_append.mp hm with hl | hterm
      · have hmem2 := loopOut_date_mem hl
        obtain ⟨_, hbnd, _⟩ := couponDates_spec pt hv
          (validDate_addYears hv term) (toRD_lt_addYears hv ht)
        exact ⟨(hbnd e.date hmem2).2.1, (hbnd e.date hmem2).2.2⟩
      · rw [(mem_terminalEvents hterm).1]
        exact ⟨toRD_lt_addYears hv ht, le_refl _⟩

/-- For every recognised payment type the maturity day carries a
Coupon/Capitalisation event: the coupon-date list ends at maturity, and
the skip rule can only drop the first coupon date, which is never the
maturity date. -/
theorem maturity_mem_couponRDs (pt : PayType) {startD : Date} {term : ℕ}
    (hv : ValidDate startD) (ht : 1 ≤ term) (hpt : pt ≠ .other)
    (p rate : ℚ) :
    toRD (addYears startD term) ∈
      couponRDs (schedule pt startD term p rate) := by
  have hvm := validDate_addYears hv term
  have hsm := toRD_lt_addYears hv ht
  obtain ⟨hpair, hbnd, hlast⟩ := couponDates_spec pt hv hvm hsm
  have hdts : addYears startD term ∈
      (loopOut pt startD term p rate).1.map Event.date := by
    rw [loopOut_dates]
    split_ifs with hsk
    · obtain ⟨f, rest, hcds, hcond, _⟩ := skip_eq_true_cases hsk
      rw [hcds] at hlast ⊢
      show addYears startD term ∈ rest
      cases rest with
      | nil =>
        have hf : f = addYears startD term := by simpa using hlast
        exfalso
        have hyy : (addYears startD term).y = startD.y + term := rfl
        have hmm : (addYears startD term).m = startD.m := rfl
        rcases hcond with ⟨_, hy, _⟩ | ⟨_, hcase⟩
        · rw [hf] at hy
          omega
        · rcases hcase with hy | ⟨hy, hm3, hge⟩
          · rw [hf] at hy
            omega
          · rw [hf] at hm3
            omega
      | cons g rest2 =>
        rw [List.getLast?_cons_cons] at hlast
        exact List.mem_of_mem_getLast? hlast
    · exact List.mem_of_mem_getLast? hlast
  obtain ⟨e, hel, hed⟩ := List.mem_map.mp hdts
  have het := loopOut_etype hel
  have hes : e ∈ schedule pt startD term p rate := by
    rw [schedule_eq_raw pt hv ht p rate, scheduleRaw_decomp hpt]
    exact List.mem_cons_of_mem _ (List.mem_append_left _ hel)
  unfold couponRDs
  refine List.mem_map.mpr ⟨e, List.mem_filter.mpr ⟨hes, ?_⟩,
    congrArg toRD hed⟩
  rw [het]
  split_ifs <;> rfl

/-- Away from maturity the record's accrual column is the loop's
accrual value. -/
theorem recAt_ai {pt : PayType} {startRD matRD : ℕ} {p rate : ℚ}
    {evts : List Event} {n : ℕ} (h : startRD + n ≠ matRD) :
    (recAt pt startRD matRD p rate evts n).ai =
      aiAt pt startRD p rate evts n := by
  unfold recAt
  dsimp only
  rw [if_neg h]

/-- C6: for every recognised bond and every day of the daily series,
accrued interest equals the previous day's principal balance times rate
times the days since the most recent Coupon/Capitalisation event day at
or before it (initialised to the start date), divided by 365; in
particular it is 0 on every Coupon/Capitalisation event day. On the
maturity day both sides are 0: the row is zeroed, and the maturity day
always carries a coupon or capitalisation event. -/
theorem claim_C6 (pt : PayType) (startD : Date) (term : ℕ) (p rate : ℚ)
    (hv : ValidDate startD) (ht : 1 ≤ term) (hpt : pt ≠ .other) :
    ∀ n, n ≤ toRD (addYears startD term) - toRD startD →
      (((dailyMetrics pt startD term p rate).getD n dfltR).ai =
        prevPBAt pt (toRD startD) p (schedule pt startD term p rate) n *
          rate *
          ((toRD startD + n -
            mostRecentEventRD (toRD startD)
              (couponRDs (schedule pt startD term p rate)) n : ℕ) : ℚ) /
          365 ∧
      (toRD startD + n ∈ couponRDs (schedule pt startD term p rate) →
        ((dailyMetrics pt startD term p rate).getD n dfltR).ai = 0)) := by
  have hlt := toRD_lt_addYears hv ht
  have hbnds := couponRDs_schedule_bounds pt hv ht p rate
  have hS : ∀ s ∈ couponRDs (schedule pt startD term p rate),
      toRD startD < s := fun s hs => (hbnds s hs).1
  intro n hn
  rw [dailyMetrics_eq_map pt p rate hv ht, getD_map_range (by omega)]
  by_cases hmat : toRD startD + n = toRD (addYears startD term)
  · obtain ⟨_, hai0, _⟩ := @recAt_maturity pt (toRD startD)
      (toRD (addYears startD term)) p rate
      (schedule pt startD term p rate) n hmat
    constructor
    · rw [hai0]
      have hmm : toRD startD + n ∈
          couponRDs (schedule pt startD term p rate) := by
        rw [hmat]
        exact maturity_mem_couponRDs pt hv ht hpt p rate
      rw [mostRecent_eq_self hmm]
      simp
    · intro _
      exact hai0
  · have hai := @recAt_ai pt (toRD startD) (toRD (addYears startD term))
      p rate (schedule pt startD term p rate) n hmat
    constructor
    · rw [hai]
      unfold aiAt
      rw [lastCouponRD_eq_mostRecent hS]
    · intro hmm
      rw [hai]
      unfold aiAt
      rw [lastCouponRD_eq_mostRecent hS, mostRecent_eq_self hmm]
      simp

theorem claim_C6_witness :
    ValidDate ⟨2023, 10, 20⟩ ∧ 1 ≤ 2 ∧ PayType.semiAnnual ≠ .other ∧
    (∀ n, n ≤ toRD (addYears ⟨2023, 10, 20⟩ 2) - toRD ⟨2023, 10, 20⟩ →
      (((dailyMetrics .semiAnnual ⟨2023, 10, 20⟩ 2 1000000
          (31/400)).getD n dfltR).ai =
        prevPBAt .semiAnnual (toRD ⟨2023, 10, 20⟩) 1000000
          (schedule .semiAnnual ⟨2023, 10, 20⟩ 2 1000000 (31/400)) n *
          (31/400) *
          ((toRD ⟨2023, 10, 20⟩ + n -
            mostRecentEventRD (toRD ⟨2023, 10, 20⟩)
              (couponRDs (schedule .semiAnnual ⟨2023, 10, 20⟩ 2 1000000
                (31/400))) n : ℕ) : ℚ) / 365 ∧
      (toRD ⟨2023, 10, 20⟩ + n ∈
          couponRDs (schedule .semiAnnual ⟨2023, 10, 20⟩ 2 1000000
            (31/400)) →
        ((dailyMetrics .semiAnnual ⟨2023, 10, 20⟩ 2 1000000
          (31/400)).getD n dfltR).ai = 0))) :=
  ⟨by decide, by decide, by decide,
   claim_C6 .semiAnnual ⟨2023, 10, 20⟩ 2 1000000 (31/400)
     (by decide) (by decide) (by decide)⟩

/-- Day numbers of the Capitalisation events of a schedule. -/
def capEventRDs (evts : List Event) : List ℕ :=
  (evts.filter (fun e => decide (e.etype = .capitalisation))).map
    (fun e => toRD e.date)

/-- The date-keyed (day, cash-flow) entries feeding the reinvest
principal-balance column (source lines 222-228). -/
def pbEntries (evts : List Event) : List (ℕ × ℚ) :=
  (evts.filter (fun e =>
    decide (e.etype = .investment ∨ e.etype = .capitalisation))).map
    (fun e => (toRD e.date, e.amount))

/-- Sum of absolute values of the entries keyed at or before `c`:
the cumsum-and-forward-fill of the grouped absolute cash flows. -/
def absSumUpTo (L : List (ℕ × ℚ)) (c : ℕ) : ℚ :=
  ((L.filter (fun g => decide (g.1 ≤ c))).map (fun g => |g.2|)).sum

theorem pbAt_reinvest (startRD : ℕ) (p : ℚ) (evts : List Event) (n : ℕ) :
    pbAt .reinvest startRD p evts n =
      absSumUpTo (groupSums (pbEntries evts)) (startRD + n) := by
  unfold pbAt absSumUpTo pbEntries
  rw [if_pos rfl]

/-- Grouping by consecutive equal keys is the identity on a list whose
keys are strictly increasing. -/
theorem groupSums_eq_self {l : List (ℕ × ℚ)}
    (h : (l.map Prod.fst).Pairwise (· < ·)) : groupSums l = l := by
  induction l with
  | nil => rfl
  | cons x rest ih =>
    obtain ⟨d, a⟩ := x
    simp only [List.map_cons] at h
    have htail := ih h.of_cons
    simp only [groupSums]
    rw [htail]
    cases rest with
    | nil => rfl
    | cons y t =>
      obtain ⟨d2, a2⟩ := y
      have hlt : d < d2 := (List.pairwise_cons.mp h).1 d2 (by simp)
      show (if d = d2 then (d, a + a2) :: t
        else (d, a) :: (d2, a2) :: t) = (d, a) :: (d2, a2) :: t
      rw [if_neg (by omega)]

theorem absSumUpTo_mono (L : List (ℕ × ℚ)) {c c' : ℕ} (h : c ≤ c') :
    absSumUpTo L c ≤ absSumUpTo L c' := by
  induction L with
  | nil =>
    unfold absSumUpTo
    simp
  | cons g t ih =>
    unfold absSumUpTo at ih ⊢
    rw [List.filter_cons, List.filter_cons]
    by_cases h1 : g.1 ≤ c
    · rw [if_pos (by simpa using h1),
        if_pos (by simp only [decide_eq_true_eq]; omega)]
      simp only [List.map_cons, List.sum_cons]
      exact add_le_add_left ih _
    · rw [if_neg (by simpa using h1)]
      by_cases h2 : g.1 ≤ c'
      · rw [if_pos (by simpa using h2)]
        simp only [List.map_cons, List.sum_cons]
        have habs : (0 : ℚ) ≤ |g.2| := abs_nonneg _
        linarith
      · rw [if_neg (by simpa using h2)]
        exact ih

theorem absSumUpTo_succ (L : List (ℕ × ℚ)) (c : ℕ) :
    absSumUpTo L (c + 1) = absSumUpTo L c +
      ((L.filter (fun g => decide (g.1 = c + 1))).map
        (fun g => |g.2|)).sum := by
  induction L with
  | nil =>
    unfold absSumUpTo
    simp
  | cons g t ih =>
    unfold absSumUpTo at ih ⊢
    rw [List.filter_cons, List.filter_cons, List.filter_cons]
    by_cases h1 : g.1 = c + 1
    · rw [if_pos (by simp [h1]),
        if_neg (by simp only [decide_eq_true_eq]; omega),
        if_pos (by simp [h1])]
      simp only [List.map_cons, List.sum_cons]
      rw [ih]
      ring
    · by_cases h2 : g.1 ≤ c
      · rw [if_pos (by simp only [decide_eq_true_eq]; omega),
          if_pos (by simpa using h2), if_neg (by simpa using h1)]
        simp only [List.map_cons, List.sum_cons]
        rw [ih]
        ring
      · rw [if_neg (by simp only [decide_eq_true_eq]; omega),
          if_neg (by simpa using h2), if_neg (by simpa using h1)]
        exact ih

/-- The one-day jump of the balance is positive exactly when an entry is
keyed at that day, provided no entry's value is zero. -/
theorem filter_absSum_pos_iff {L : List (ℕ × ℚ)}
    (hL : ∀ g ∈ L, g.2 ≠ 0) (c : ℕ) :
    (0 < ((L.filter (fun g => decide (g.1 = c))).map
        (fun g => |g.2|)).sum) ↔
      ∃ g ∈ L, g.1 = c := by
  constructor
  · intro hpos
    by_contra hno
    push_neg at hno
    have hnil : L.filter (fun g => decide (g.1 = c)) = [] := by
      rw [List.filter_eq_nil]
      intro g hg
      simp only [decide_eq_true_eq]
      exact hno g hg
    rw [hnil] at hpos
    simp at hpos
  · rintro ⟨g, hg, hgc⟩
    have hmem : g ∈ L.filter (fun g => decide (g.1 = c)) :=
      List.mem_filter.mpr ⟨hg, by simp [hgc]⟩
    have hgpos : 0 < |g.2| := abs_pos.mpr (hL g hg)
    calc (0 : ℚ) < |g.2| := hgpos
      _ ≤ _ := List.single_le_sum (fun x hx => by
          obtain ⟨y, _, rfl⟩ := List.mem_map.mp hx
          exact abs_nonneg _) _
          (List.mem_map_of_mem (fun g : ℕ × ℚ => |g.2|) hmem)

/-- Every amount the reinvest coupon loop emits is positive, and the
running principal never decreases, for a positive rate, nonnegative
deferred stub, positive principal and strictly increasing dates. -/
theorem couponLoop_reinvest_pos (rate defi : ℚ) (skip : Bool)
    (hr : 0 < rate) (hd : 0 ≤ defi) :
    ∀ (ds : List Date) (idx : ℕ) (last : Date) (p : ℚ), 0 < p →
      (last :: ds).Pairwise (fun a b => toRD a < toRD b) →
      (∀ e ∈ (couponLoop .reinvest rate skip defi ds idx last p).1,
        0 < e.amount) ∧
      p ≤ (couponLoop .reinvest rate skip defi ds idx last p).2 := by
  intro ds
  induction ds with
  | nil =>
    intro idx last p hp hpw
    rw [couponLoop_nil]
    exact ⟨fun e he => absurd he (List.not_mem_nil e), le_refl p⟩
  | cons dt rest ih =>
    intro idx last p hp hpw
    have hlt : toRD last < toRD dt :=
      (List.pairwise_cons.mp hpw).1 dt (List.mem_cons_self _ _)
    have hpw2 : (dt :: rest).Pairwise (fun a b => toRD a < toRD b) :=
      hpw.of_cons
    have hgap : (0 : ℤ) < daysBetween last dt := by
      unfold daysBetween
      omega
    have hbase : 0 < periodAmount .reinvest p rate (daysBetween last dt) := by
      show 0 < if 180 ≤ daysBetween last dt ∧ daysBetween last dt ≤ 185
        then p * rate / 2 else stub365 p rate (daysBetween last dt)
      split_ifs with hfull
      · positivity
      · unfold stub365
        apply div_pos _ (by norm_num)
        exact mul_pos (mul_pos hp hr) (by exact_mod_cast hgap)
    by_cases hsk : idx = 0 ∧ skip = true
    · obtain ⟨h0, hs⟩ := hsk
      subst h0
      subst hs
      rw [couponLoop_skip_head]
      exact ih 1 dt p hp hpw2
    · rw [couponLoop_cons .reinvest rate defi skip dt rest idx last p hsk]
      simp only [reduceIte]
      have hamt : 0 < (if idx = 1 ∧ skip = true ∧ 0 < defi then
          periodAmount .reinvest p rate (daysBetween last dt) + defi
        else periodAmount .reinvest p rate (daysBetween last dt)) := by
        split_ifs with hb
        · linarith [hb.2.2]
        · exact hbase
      have hrec := ih (idx + 1) dt
        (p + (if idx = 1 ∧ skip = true ∧ 0 < defi then
          periodAmount .reinvest p rate (daysBetween last dt) + defi
        else periodAmount .reinvest p rate (daysBetween last dt)))
        (by linarith) hpw2
      constructor
      · intro e he
        rcases List.mem_cons.mp he with rfl | he2
        · exact hamt
        · exact hrec.1 e he2
      · have := hrec.2
        linarith

/-- The reinvest skip decision is always off with zero deferred stub. -/
theorem theSkip_reinvest (startD : Date) (term : ℕ) (p rate : ℚ) :
    theSkip .reinvest startD term p rate = (false, 0) := by
  unfold theSkip
  rw [skipInfo_reinvest]

/-- Every capitalisation amount of the reinvest schedule is positive
for positive principal and rate. -/
theorem loopOut_amounts_pos {startD : Date} {term : ℕ} {p rate : ℚ}
    (hv : ValidDate startD) (ht : 1 ≤ term) (hp : 0 < p)
    (hr : 0 < rate) :
    ∀ e ∈ (loopOut .reinvest startD term p rate).1, 0 < e.amount := by
  have hvm := validDate_addYears hv term
  have hsm := toRD_lt_addYears hv ht
  obtain ⟨hpair, hbnd, hlast⟩ := couponDates_spec .reinvest hv hvm hsm
  have hchain : (startD :: couponDates .reinvest startD
      (addYears startD term)).Pairwise (fun a b => toRD a < toRD b) :=
    List.pairwise_cons.mpr ⟨fun x hx => (hbnd x hx).2.1, hpair⟩
  intro e he
  unfold loopOut at he
  exact (couponLoop_reinvest_pos rate _ _ hr
    (le_of_eq (congrArg Prod.snd (theSkip_reinvest startD term p rate)).symm)
    _ 0 startD p hp hchain).1 e he

/-- Away from maturity the record's balance column is the loop's
balance value. -/
theorem recAt_pb {pt : PayType} {startRD matRD : ℕ} {p rate : ℚ}
    {evts : List Event} {n : ℕ} (h : startRD + n ≠ matRD) :
    (recAt pt startRD matRD p rate evts n).pb =
      pbAt pt startRD p evts n := by
  unfold recAt
  dsimp only
  rw [if_neg h]

/-- The principal-balance entries of a reinvest schedule: the initial
investment followed by the capitalisation events. -/
theorem pbEntries_schedule_reinvest {startD : Date} {term : ℕ}
    (hv : ValidDate startD) (ht : 1 ≤ term) (p rate : ℚ) :
    pbEntries (schedule .reinvest startD term p rate) =
      (toRD startD, -p) ::
        (loopOut .reinvest startD term p rate).1.map
          (fun e => (toRD e.date, e.amount)) := by
  unfold pbEntries
  have hcnd : (decide
      ((⟨startD, -p, EType.investment⟩ : Event).etype = EType.investment ∨
       (⟨startD, -p, EType.investment⟩ : Event).etype =
         EType.capitalisation)) = true := rfl
  rw [schedule_eq_raw .reinvest hv ht p rate,
    scheduleRaw_decomp (by decide), List.filter_cons,
    if_pos hcnd, List.filter_append]
  have h1 : (loopOut .reinvest startD term p rate).1.filter
      (fun e => decide (e.etype = .investment ∨
        e.etype = .capitalisation)) =
      (loopOut .reinvest startD term p rate).1 := by
    rw [List.filter_eq_self]
    intro e he
    have het : e.etype = EType.capitalisation := by
      have := loopOut_etype he
      simpa using this
    simp [het]
  have h2 : (terminalEvents .reinvest (addYears startD term) p
      (loopOut .reinvest startD term p rate).2).filter
      (fun e => decide (e.etype = .investment ∨
        e.etype = .capitalisation)) = [] := by
    rw [List.filter_eq_nil]
    intro e he
    obtain ⟨_, htyp⟩ := mem_terminalEvents he
    rcases htyp with h | h <;> simp [h]
  rw [h1, h2, List.append_nil]
  simp only [List.map_cons]

/-- The capitalisation-event days of a reinvest schedule are exactly the
coupon-loop event days. -/
theorem capEventRDs_schedule_reinvest {startD : Date} {term : ℕ}
    (hv : ValidDate startD) (ht : 1 ≤ term) (p rate : ℚ) :
    capEventRDs (schedule .reinvest startD term p rate) =
      (loopOut .reinvest startD term p rate).1.map
        (fun e => toRD e.date) := by
  unfold capEventRDs
  rw [schedule_eq_raw .reinvest hv ht p rate,
    scheduleRaw_decomp (by decide), List.filter_cons,
    if_neg (by simp), List.filter_append]
  have h1 : (loopOut .reinvest startD term p rate).1.filter
      (fun e => decide (e.etype = .capitalisation)) =
      (loopOut .reinvest startD term p rate).1 := by
    rw [List.filter_eq_self]
    intro e he
    have het : e.etype = EType.capitalisation := by
      have := loopOut_etype he
      simpa using this
    simp [het]
  have h2 : (terminalEvents .reinvest (addYears startD term) p
      (loopOut .reinvest startD term p rate).2).filter
      (fun e => decide (e.etype = .capitalisation)) = [] := by
    rw [List.filter_eq_nil]
    intro e he
    obtain ⟨_, htyp⟩ := mem_terminalEvents he
    rcases htyp with h | h <;> simp [h]
  rw [h1, h2, List.append_nil]

/-- The keys of the reinvest balance entries are strictly increasing. -/
theorem pbEntries_keys_sorted {startD : Date} {term : ℕ}
    (hv : ValidDate startD) (ht : 1 ≤ term) (p rate : ℚ) :
    ((pbEntries (schedule .reinvest startD term p rate)).map
      Prod.fst).Pairwise (· < ·) := by
  have hvm := validDate_addYears hv term
  have hsm := toRD_lt_addYears hv ht
  obtain ⟨hpair, hbnd, hlast⟩ := couponDates_spec .reinvest hv hvm hsm
  rw [pbEntries_schedule_reinvest hv ht p rate]
  simp only [List.map_cons, List.map_map]
  refine List.pairwise_cons.mpr ⟨?_, ?_⟩
  · intro b hb
    obtain ⟨e, he, rfl⟩ := List.mem_map.mp hb
    show toRD startD < toRD e.date
    exact (hbnd e.date (loopOut_date_mem he)).2.1
  · have hlp := loopOut_pairwise .reinvest hv hvm hsm p rate
    exact hlp.map _ (fun a b hab => hab)

/-- No balance entry of a reinvest schedule has a zero value. -/
theorem pbEntries_vals_nonzero {startD : Date} {term : ℕ} {p rate : ℚ}
    (hv : ValidDate startD) (ht : 1 ≤ term) (hp : 0 < p)
    (hr : 0 < rate) :
    ∀ g ∈ pbEntries (schedule .reinvest startD term p rate), g.2 ≠ 0 := by
  rw [pbEntries_schedule_reinvest hv ht p rate]
  intro g hg
  rcases List.mem_cons.mp hg with rfl | hg2
  · exact neg_ne_zero.mpr (ne_of_gt hp)
  · obtain ⟨e, he, rfl⟩ := List.mem_map.mp hg2
    exact ne_of_gt (loopOut_amounts_pos hv ht hp hr e he)

set_option maxRecDepth 40000 in
/-- C5 as stated is false on the code: with a non-negative (zero) rate
and positive principal, the reinvest bond for start 2023-10-20, term 2,
principal 1,000,000, rate 0 has a capitalisation event on 2024-03-31
(day offset 163), yet the principal balance does not strictly increase
there: the capitalised amounts are all zero. -/
theorem claim_C5_counterexample :
    (0 : ℚ) ≤ 0 ∧ (0 : ℚ) < 1000000 ∧
    toRD ⟨2023, 10, 20⟩ + 163 ∈
      capEventRDs (schedule .reinvest ⟨2023, 10, 20⟩ 2 1000000 0) ∧
    ((dailyMetrics .reinvest ⟨2023, 10, 20⟩ 2 1000000 0).getD 163
      dfltR).pb =
    ((dailyMetrics .reinvest ⟨2023, 10, 20⟩ 2 1000000 0).getD 162
      dfltR).pb := by
  refine ⟨le_refl 0, by norm_num, ?_, ?_⟩
  · norm_num [capEventRDs, schedule, scheduleRaw, sortByDate,
      insertByDate, couponLoop, terminalEvents, theSkip, skipInfo,
      couponDates, enumeratedCoupons, allCouponDatesSA, anchorsFrom,
      withMaturity, addYears, daysInMonth, isLeap, toRD, yS,
      daysBetween, stub365, periodAmount]
    exact ⟨⟨⟨2024, 3, 31⟩, 0, .capitalisation⟩,
      ⟨Or.inr (Or.inl rfl), rfl⟩, by decide⟩
  · have hmap := dailyMetrics_eq_map .reinvest (1000000 : ℚ) 0
      (show ValidDate ⟨2023, 10, 20⟩ by decide) (show 1 ≤ 2 by decide)
    have h163 : (163 : ℕ) <
        toRD (addYears ⟨2023, 10, 20⟩ 2) - toRD ⟨2023, 10, 20⟩ + 1 := by
      decide
    have h162 : (162 : ℕ) <
        toRD (addYears ⟨2023, 10, 20⟩ 2) - toRD ⟨2023, 10, 20⟩ + 1 := by
      decide
    have hne163 : toRD ⟨2023, 10, 20⟩ + 163 ≠
        toRD (addYears ⟨2023, 10, 20⟩ 2) := by decide
    have hne162 : toRD ⟨2023, 10, 20⟩ + 162 ≠
        toRD (addYears ⟨2023, 10, 20⟩ 2) := by decide
    rw [hmap, getD_map_range h163, getD_map_range h162,
      recAt_pb hne163, recAt_pb hne162]
    norm_num [pbAt, groupSums, schedule, scheduleRaw, sortByDate,
      insertByDate, couponLoop, terminalEvents, theSkip, skipInfo,
      couponDates, enumeratedCoupons, allCouponDatesSA, anchorsFrom,
      withMaturity, addYears, daysInMonth, isLeap, toRD, yS,
      daysBetween, stub365, periodAmount]

/-- C5 amended: for a reinvest bond with positive principal and
strictly positive rate, the daily principal balance is non-decreasing
from the start up to the day before maturity, and it strictly increases
from one day to the next exactly when the next day is a
capitalisation-event day; and the generation loop increments the
running principal by each capitalisation amount immediately, computing
every subsequent period on the increased base. -/
theorem claim_C5_amended (startD : Date) (term : ℕ) (p rate : ℚ)
    (hv : ValidDate startD) (ht : 1 ≤ term) (hp : 0 < p)
    (hr : 0 < rate) :
    (∀ n, n + 1 < toRD (addYears startD term) - toRD startD →
      ((dailyMetrics .reinvest startD term p rate).getD n dfltR).pb ≤
      ((dailyMetrics .reinvest startD term p rate).getD (n + 1)
        dfltR).pb) ∧
    (∀ n, n + 1 < toRD (addYears startD term) - toRD startD →
      (((dailyMetrics .reinvest startD term p rate).getD n dfltR).pb <
       ((dailyMetrics .reinvest startD term p rate).getD (n + 1)
         dfltR).pb ↔
       toRD startD + (n + 1) ∈
         capEventRDs (schedule .reinvest startD term p rate))) ∧
    (∀ (skip : Bool) (defi : ℚ) (dt : Date) (rest : List Date) (idx : ℕ)
        (last : Date) (q : ℚ), ¬(idx = 0 ∧ skip = true) →
      couponLoop .reinvest rate skip defi (dt :: rest) idx last q =
        (⟨dt,
          (if idx = 1 ∧ skip = true ∧ 0 < defi then
            periodAmount .reinvest q rate (daysBetween last dt) + defi
          else periodAmount .reinvest q rate (daysBetween last dt)),
          .capitalisation⟩ ::
          (couponLoop .reinvest rate skip defi rest (idx + 1) dt
            (q + (if idx = 1 ∧ skip = true ∧ 0 < defi then
              periodAmount .reinvest q rate (daysBetween last dt) + defi
            else periodAmount .reinvest q rate
              (daysBetween last dt)))).1,
         (couponLoop .reinvest rate skip defi rest (idx + 1) dt
            (q + (if idx = 1 ∧ skip = true ∧ 0 < defi then
              periodAmount .reinvest q rate (daysBetween last dt) + defi
            else periodAmount .reinvest q rate
              (daysBetween last dt)))).2)) := by
  have hlt := toRD_lt_addYears hv ht
  have hmap := dailyMetrics_eq_map .reinvest p rate hv ht
  have hE := pbEntries_schedule_reinvest hv ht p rate
  have hgs := groupSums_eq_self (pbEntries_keys_sorted hv ht p rate)
  have hvals := pbEntries_vals_nonzero hv ht hp hr
  have hpbn : ∀ n, toRD startD + n ≠ toRD (addYears startD term) →
      n < toRD (addYears startD term) - toRD startD + 1 →
      ((dailyMetrics .reinvest startD term p rate).getD n dfltR).pb =
        absSumUpTo (pbEntries (schedule .reinvest startD term p rate))
          (toRD startD + n) := by
    intro n hne hn
    rw [hmap, getD_map_range hn, recAt_pb hne, pbAt_reinvest, hgs]
  refine ⟨?_, ?_, ?_⟩
  · intro n hn
    rw [hpbn n (by omega) (by omega), hpbn (n + 1) (by omega) (by omega)]
    exact absSumUpTo_mono _ (by omega)
  · intro n hn
    rw [hpbn n (by omega) (by omega), hpbn (n + 1) (by omega) (by omega)]
    have harg : toRD startD + (n + 1) = (toRD startD + n) + 1 := by
      omega
    rw [harg, absSumUpTo_succ, lt_add_iff_pos_right,
      filter_absSum_pos_iff hvals,
      capEventRDs_schedule_reinvest hv ht p rate, hE]
    constructor
    · rintro ⟨g, hg, hgc⟩
      rcases List.mem_cons.mp hg with rfl | hg2
      · exfalso
        simp only [Prod.fst] at hgc
        omega
      · obtain ⟨e, he, rfl⟩ := List.mem_map.mp hg2
        simp only [Prod.fst] at hgc
        exact List.mem_map.mpr ⟨e, he, hgc⟩
    · intro hmem
      obtain ⟨e, he, hed⟩ := List.mem_map.mp hmem
      exact ⟨(toRD e.date, e.amount),
        List.mem_cons_of_mem _ (List.mem_map_of_mem _ he),
        by simpa using hed⟩
  · intro skip defi dt rest idx last q hns
    rw [couponLoop_cons .reinvest rate defi skip dt rest idx last q hns]
    simp

theorem claim_C5_amended_witness :
    ValidDate ⟨2023, 10, 20⟩ ∧ 1 ≤ 2 ∧ (0 : ℚ) < 1000000 ∧
      (0 : ℚ) < 31/400 ∧
    ((∀ n, n + 1 < toRD (addYears ⟨2023, 10, 20⟩ 2) -
        toRD ⟨2023, 10, 20⟩ →
      ((dailyMetrics .reinvest ⟨2023, 10, 20⟩ 2 1000000 (31/400)).getD n
        dfltR).pb ≤
      ((dailyMetrics .reinvest ⟨2023, 10, 20⟩ 2 1000000 (31/400)).getD
        (n + 1) dfltR).pb) ∧
    (∀ n, n + 1 < toRD (addYears ⟨2023, 10, 20⟩ 2) -
        toRD ⟨2023, 10, 20⟩ →
      (((dailyMetrics .reinvest ⟨2023, 10, 20⟩ 2 1000000
          (31/400)).getD n dfltR).pb <
       ((dailyMetrics .reinvest ⟨2023, 10, 20⟩ 2 1000000
          (31/400)).getD (n + 1) dfltR).pb ↔
       toRD ⟨2023, 10, 20⟩ + (n + 1) ∈
         capEventRDs (schedule .reinvest ⟨2023, 10, 20⟩ 2 1000000
           (31/400)))) ∧
    (∀ (skip : Bool) (defi : ℚ) (dt : Date) (rest : List Date)
        (idx : ℕ) (last : Date) (q : ℚ), ¬(idx = 0 ∧ skip = true) →
      couponLoop .reinvest (31/400) skip defi (dt :: rest) idx last q =
        (⟨dt,
          (if idx = 1 ∧ skip = true ∧ 0 < defi then
            periodAmount .reinvest q (31/400) (daysBetween last dt) +
              defi
          else periodAmount .reinvest q (31/400)
            (daysBetween last dt)),
          .capitalisation⟩ ::
          (couponLoop .reinvest (31/400) skip defi rest (idx + 1) dt
            (q + (if idx = 1 ∧ skip = true ∧ 0 < defi then
              periodAmount .reinvest q (31/400) (daysBetween last dt) +
                defi
            else periodAmount .reinvest q (31/400)
              (daysBetween last dt)))).1,
         (couponLoop .reinvest (31/400) skip defi rest (idx + 1) dt
            (q + (if idx = 1 ∧ skip = true ∧ 0 < defi then
              periodAmount .reinvest q (31/400) (daysBetween last dt) +
                defi
            else periodAmount .reinvest q (31/400)
              (daysBetween last dt)))).2))) :=
  ⟨by decide, by decide, by norm_num, by norm_num,
   claim_C5_amended ⟨2023, 10, 20⟩ 2 1000000 (31/400) (by decide)
     (by decide) (by norm_num) (by norm_num)⟩

/-- Both branches of the daily record keep the cumulative-capitalised
column. -/
theorem recAt_tcc (pt : PayType) (startRD matRD : ℕ) (p rate : ℚ)
    (evts : List Event) (n : ℕ) :
    (recAt pt startRD matRD p rate evts n).totalCapitalised =
      tccAt pt startRD p evts n := by
  unfold recAt
  dsimp only
  split <;> rfl

/-- When every key is within range the balance is the sum of all
absolute values. -/
theorem absSumUpTo_all {L : List (ℕ × ℚ)} {c : ℕ}
    (h : ∀ g ∈ L, g.1 ≤ c) :
    absSumUpTo L c = (L.map (fun g => |g.2|)).sum := by
  unfold absSumUpTo
  rw [List.filter_eq_self.mpr (fun g hg => by simpa using h g hg)]

/-- The reinvest coupon-loop events are the whole coupon-date list:
the skip rule is never applied to reinvest bonds. -/
theorem loopOut_dates_reinvest (startD : Date) (term : ℕ) (p rate : ℚ) :
    (loopOut .reinvest startD term p rate).1.map Event.date =
      couponDates .reinvest startD (addYears startD term) := by
  rw [loopOut_dates, theSkip_reinvest]
  rfl

set_option maxRecDepth 2000 in
/-- C10: the maturity-day adjustment rewrites only the principal
balance, accrued interest and book value of the maturity record,
keeping the coupon cash flow, principal cash flow, cumulative coupons
and cumulative capitalised interest at their computed values; and for a
reinvest bond with positive principal and rate, the maturity record's
cumulative capitalised interest equals the (positive) total capitalised
interest accumulated by the generation loop while its principal balance
is zero. -/
theorem claim_C10 (startD : Date) (term : ℕ) (p rate : ℚ)
    (hv : ValidDate startD) (ht : 1 ≤ term) (hp : 0 < p)
    (hr : 0 < rate) :
    (∀ (pt : PayType) (startRD matRD : ℕ) (q r : ℚ)
        (evts : List Event) (n : ℕ), startRD + n = matRD →
      recAt pt startRD matRD q r evts n =
        { dateRD := startRD + n
          pb := 0
          couponCF := couponCFAt startRD matRD evts n
          principalCF := principalCFAt startRD matRD evts n
          ai := 0
          bv := 0
          totalCouponsPaid := tcpAt startRD matRD evts n
          totalCapitalised := tccAt pt startRD q evts n }) ∧
    ((dailyMetrics .reinvest startD term p rate).getD
      (toRD (addYears startD term) - toRD startD) dfltR).pb = 0 ∧
    ((dailyMetrics .reinvest startD term p rate).getD
      (toRD (addYears startD term) - toRD startD) dfltR).totalCapitalised
      = (loopOut .reinvest startD term p rate).2 - p ∧
    0 < ((dailyMetrics .reinvest startD term p rate).getD
      (toRD (addYears startD term) - toRD startD)
      dfltR).totalCapitalised := by
  have hlt := toRD_lt_addYears hv ht
  have hvm := validDate_addYears hv term
  obtain ⟨hpair, hbnd, hlast⟩ := couponDates_spec .reinvest hv hvm hlt
  have hframe : ∀ (pt : PayType) (startRD matRD : ℕ) (q r : ℚ)
      (evts : List Event) (n : ℕ), startRD + n = matRD →
      recAt pt startRD matRD q r evts n =
        { dateRD := startRD + n
          pb := 0
          couponCF := couponCFAt startRD matRD evts n
          principalCF := principalCFAt startRD matRD evts n
          ai := 0
          bv := 0
          totalCouponsPaid := tcpAt startRD matRD evts n
          totalCapitalised := tccAt pt startRD q evts n } := by
    intro pt startRD matRD q r evts n hmatn
    unfold recAt
    dsimp only
    rw [if_pos hmatn]
  have hmat : toRD startD +
      (toRD (addYears startD term) - toRD startD) =
      toRD (addYears startD term) := by omega
  have hmap := dailyMetrics_eq_map .reinvest p rate hv ht
  have hget : (dailyMetrics .reinvest startD term p rate).getD
      (toRD (addYears startD term) - toRD startD) dfltR =
      recAt .reinvest (toRD startD) (toRD (addYears startD term)) p rate
        (schedule .reinvest startD term p rate)
        (toRD (addYears startD term) - toRD startD) := by
    rw [hmap, getD_map_range (by omega)]
  obtain ⟨hpb0, _, _⟩ := @recAt_maturity .reinvest (toRD startD)
    (toRD (addYears startD term)) p rate
    (schedule .reinvest startD term p rate)
    (toRD (addYears startD term) - toRD startD) hmat
  have hamts := loopOut_amounts_pos hv ht hp hr
  have hdts := loopOut_dates_reinvest startD term p rate
  have hloop_ne : (loopOut .reinvest startD term p rate).1 ≠ [] := by
    intro h0
    rw [h0] at hdts
    rw [← hdts] at hlast
    simp at hlast
  have htccval : tccAt .reinvest (toRD startD) p
      (schedule .reinvest startD term p rate)
      (toRD (addYears startD term) - toRD startD) =
      ((loopOut .reinvest startD term p rate).1.map
        Event.amount).sum := by
    have h1 : tccAt .reinvest (toRD startD) p
        (schedule .reinvest startD term p rate)
        (toRD (addYears startD term) - toRD startD) =
        pbAt .reinvest (toRD startD) p
          (schedule .reinvest startD term p rate)
          (toRD (addYears startD term) - toRD startD) - p := by
      unfold tccAt
      rw [if_pos rfl]
    rw [h1, pbAt_reinvest,
      groupSums_eq_self (pbEntries_keys_sorted hv ht p rate),
      absSumUpTo_all, pbEntries_schedule_reinvest hv ht p rate]
    · simp only [List.map_cons, List.map_map, List.sum_cons]
      rw [abs_neg, abs_of_pos hp]
      have hcong : (loopOut .reinvest startD term p rate).1.map
          ((fun g : ℕ × ℚ => |g.2|) ∘ fun e => (toRD e.date, e.amount))
          = (loopOut .reinvest startD term p rate).1.map Event.amount :=
        List.map_congr_left (fun e he => abs_of_pos (hamts e he))
      rw [hcong]
      ring
    · rw [pbEntries_schedule_reinvest hv ht p rate]
      intro g hg
      rcases List.mem_cons.mp hg with rfl | hg2
      · show toRD startD ≤ toRD startD +
          (toRD (addYears startD term) - toRD startD)
        omega
      · obtain ⟨e, he, rfl⟩ := List.mem_map.mp hg2
        show toRD e.date ≤ toRD startD +
          (toRD (addYears startD term) - toRD startD)
        have := (hbnd e.date (loopOut_date_mem he)).2.2
        omega
  refine ⟨hframe, ?_, ?_, ?_⟩
  · rw [hget]
    exact hpb0
  · rw [hget, recAt_tcc, htccval, loopOut_pEnd, if_pos rfl]
    ring
  · rw [hget, recAt_tcc, htccval]
    apply List.sum_pos
    · intro x hx
      obtain ⟨e, he, rfl⟩ := List.mem_map.mp hx
      exact hamts e he
    · intro h0
      exact hloop_ne (by simpa using h0)

theorem claim_C10_witness :
    ValidDate ⟨2023, 10, 20⟩ ∧ 1 ≤ 2 ∧ (0 : ℚ) < 1000000 ∧
      (0 : ℚ) < 31/400 ∧
    ((∀ (pt : PayType) (startRD matRD : ℕ) (q r : ℚ)
        (evts : List Event) (n : ℕ), startRD + n = matRD →
      recAt pt startRD matRD q r evts n =
        { dateRD := startRD + n
          pb := 0
          couponCF := couponCFAt startRD matRD evts n
          principalCF := principalCFAt startRD matRD evts n
          ai := 0
          bv := 0
          totalCouponsPaid := tcpAt startRD matRD evts n
          totalCapitalised := tccAt pt startRD q evts n }) ∧
    ((dailyMetrics .reinvest ⟨2023, 10, 20⟩ 2 1000000 (31/400)).getD
      (toRD (addYears ⟨2023, 10, 20⟩ 2) - toRD ⟨2023, 10, 20⟩)
      dfltR).pb = 0 ∧
    ((dailyMetrics .reinvest ⟨2023, 10, 20⟩ 2 1000000 (31/400)).getD
      (toRD (addYears ⟨2023, 10, 20⟩ 2) - toRD ⟨2023, 10, 20⟩)
      dfltR).totalCapitalised =
      (loopOut .reinvest ⟨2023, 10, 20⟩ 2 1000000 (31/400)).2 -
        1000000 ∧
    0 < ((dailyMetrics .reinvest ⟨2023, 10, 20⟩ 2 1000000
      (31/400)).getD
      (toRD (addYears ⟨2023, 10, 20⟩ 2) - toRD ⟨2023, 10, 20⟩)
      dfltR).totalCapitalised) :=
  ⟨by decide, by decide, by norm_num, by norm_num,
   claim_C10 ⟨2023, 10, 20⟩ 2 1000000 (31/400) (by decide) (by decide)
     (by norm_num) (by norm_num)⟩

end RSARSB

